import Mathlib

/-!
# Verification of the linebased tokenizer and macro/include expansion engine

Shallow embedding of the Go package `blake.io/linebased`: the tokenizer
(`Decoder.Decode`), the expression data model (`Expression`, `Expanded`,
`Args`, `ParseArgs`), and the macro/include expansion engine
(`ExpandingDecoder` in `expander.go`).  Text is modelled as `List Char`
(Go strings are byte strings; all inputs exercised here are ASCII, where
byte-wise and char-wise scanning coincide).  Stateful Go code is modelled
as explicit state passing; the mutually recursive expansion engine is
modelled with a fuel parameter.  Error values are modelled structurally:
each error construction site in the Go source has its own constructor
carrying the same data the Go code formats into the message.
-/

namespace Linebased

/-- Text: Go strings modelled as lists of characters. -/
abbrev Str := List Char

/-- Go `unicode.IsSpace` (the White_Space property): space, tab, newline,
vertical tab, form feed, carriage return, NEL, NBSP and the higher
Unicode space code points. -/
def isUSpace (c : Char) : Bool :=
  c = ' ' || c = '\t' || c = '\n' || c = '\x0b' || c = '\x0c' || c = '\x0d' ||
  c = '\x85' || c = '\xa0' ||
  c = ' ' || (' ' ≤ c && c ≤ ' ') ||
  c = ' ' || c = ' ' || c = ' ' || c = ' ' || c = '　'

/-- Go `strings.TrimLeftFunc s unicode.IsSpace`. -/
def trimLeftU (s : Str) : Str := s.dropWhile isUSpace

/-- Go `strings.TrimRightFunc s unicode.IsSpace`. -/
def trimRightU (s : Str) : Str := (s.reverse.dropWhile isUSpace).reverse

/-- Go `strings.TrimSpace`. -/
def trimSpaceU (s : Str) : Str := trimRightU (trimLeftU s)

/-- Go `strings.TrimLeft(s, " \t")`. -/
def trimLeftST (s : Str) : Str := s.dropWhile (fun c => c = ' ' || c = '\t')

/-- Go `strings.TrimSuffix(s, "\n")`: remove one trailing newline if present. -/
def trimSuffixNL (s : Str) : Str :=
  if s.getLast? = some '\n' then s.dropLast else s

/-- Go `strings.HasSuffix(s, suf)` under the name `endsWith`. -/
def endsWith (s suf : Str) : Bool := suf.isSuffixOf s

/-- Go `strings.Cut(s, "\n")`: text before and after the first newline
(the whole string and empty when there is no newline). -/
def cutNL (s : Str) : Str × Str :=
  match s.findIdx? (· = '\n') with
  | none => (s, [])
  | some i => (s.take i, s.drop (i + 1))

/-- `cutField` (doc.go): slices `s` around the first run of whitespace,
returning the text before and after the run.  The Go code trims leading
space, takes the text before the first space (`IndexFunc`), and left-trims
the remainder; `takeWhile`/`dropWhile` at the first space index are the
same split. -/
def cutField (s : Str) : Str × Str :=
  let s1 := trimLeftU s
  (s1.takeWhile (fun c => ! isUSpace c),
   trimLeftU (s1.dropWhile (fun c => ! isUSpace c)))

/-- The first element surviving `dropWhile p` fails `p`. -/
theorem dropWhile_head_false {p : Char → Bool} :
    ∀ {l : Str} {a : Char} {as : Str}, l.dropWhile p = a :: as → p a = false := by
  intro l
  induction l with
  | nil => intro a as h; simp [List.dropWhile] at h
  | cons c cs ih =>
    intro a as h
    by_cases hc : p c = true
    · rw [List.dropWhile_cons_of_pos hc] at h; exact ih h
    · rw [List.dropWhile_cons_of_neg hc] at h
      cases h; simpa using hc

/-- `dropWhile` never lengthens a list. -/
theorem length_dropWhile_le' (p : Char → Bool) (l : Str) :
    (l.dropWhile p).length ≤ l.length := by
  induction l with
  | nil => simp [List.dropWhile]
  | cons c cs ih =>
    by_cases hc : p c = true
    · rw [List.dropWhile_cons_of_pos hc]; simp; omega
    · rw [List.dropWhile_cons_of_neg hc]

/-- The tail returned by `cutField` is strictly shorter than a nonempty input. -/
theorem cutField_snd_lt (c : Char) (cs : Str) :
    (cutField (c :: cs)).2.length < (c :: cs).length := by
  simp only [cutField]
  have h1 : (trimLeftU (c :: cs)).length ≤ (c :: cs).length :=
    length_dropWhile_le' _ _
  cases hd : (trimLeftU (c :: cs)).dropWhile (fun c => ! isUSpace c) with
  | nil => simp [trimLeftU]
  | cons a as =>
    have ha : (! isUSpace a) = false := dropWhile_head_false hd
    have h2 : (a :: as).length ≤ (trimLeftU (c :: cs)).length := by
      have := length_dropWhile_le' (fun c => ! isUSpace c) (trimLeftU (c :: cs))
      rw [hd] at this; exact this
    have h3 : (trimLeftU (a :: as)).length ≤ as.length := by
      simp only [trimLeftU]
      rw [List.dropWhile_cons_of_pos (by simpa using ha)]
      exact length_dropWhile_le' _ _
    simp only [List.length_cons] at *
    omega

/-- Go `strings.Fields`: the substrings separated by runs of unicode
space.  Structural recursion on a character budget: each step consumes at
least one character, so a budget of `s.length` never runs out (the zero
case is unreachable from `fieldsGo`). -/
def fieldsF : Nat → Str → List Str
  | 0, _ => []
  | _, [] => []
  | Nat.succ f, c :: s =>
    if isUSpace c then fieldsF f s
    else (c :: s.takeWhile (fun d => ! isUSpace d)) ::
         fieldsF f (s.dropWhile (fun d => ! isUSpace d))

/-- Go `strings.Fields`. -/
def fieldsGo (s : Str) : List Str := fieldsF s.length s

/-- Loop body of `ParseArgs` (args.go), on a character budget: every
iteration consumes at least one character (`cutField_snd_lt`), so a
budget of `s.length` never runs out. -/
def parseArgsF (unlimited : Bool) : Nat → Str → Int → List Str
  | 0, _, _ => []
  | _, [], _ => []
  | Nat.succ f, c :: cs, n =>
    if n = 1 ∧ unlimited = false then [c :: cs]
    else
      (cutField (c :: cs)).1 ::
        parseArgsF unlimited f (cutField (c :: cs)).2 (n - 1)

/-- `ParseArgs` (args.go): split `s` into at most `n` whitespace-separated
arguments; the final argument absorbs the remaining text.  `n` is a Go
`int`, so it is modelled as `Int`; `n < 0` means unlimited. -/
def parseArgsGo (s : Str) (n : Int) : List Str :=
  if n = 0 then [] else parseArgsF (decide (n < 0)) s.length s n

/-- `Args.At` (args.go): the `i`-th argument trimmed of one trailing
newline, or empty when `i` is out of bounds.  `i` is a Go `int`. -/
def argsAt (a : List Str) (i : Int) : Str :=
  if h : i < 0 ∨ (a.length : Int) ≤ i then []
  else
    trimSuffixNL (a.get ⟨i.toNat, by omega⟩)

/-- Instrumented `Args.At` in which the slice indexing `a[i]` is the
partial Go operation (`none` models an index-out-of-range panic): used to
state that `Args.At` never panics. -/
def goSliceIndex (a : List Str) (i : Int) : Option Str :=
  if h : 0 ≤ i ∧ i.toNat < a.length then some (a.get ⟨i.toNat, h.2⟩) else none

/-- `Args.At` with its internal indexing made partial; `none` would mean
the Go code panicked. -/
def argsAtChecked (a : List Str) (i : Int) : Option Str :=
  if i < 0 ∨ (a.length : Int) ≤ i then some []
  else (goSliceIndex a i).map trimSuffixNL

/-! ## Tokenizer (`linebased.go`): `Decoder`, `Expression`, `SyntaxError` -/

/-- `SyntaxError` (linebased.go). -/
structure SynErr where
  Line : Nat
  Message : Str
deriving DecidableEq, Repr

/-- `Expression` (linebased.go): one parsed unit. -/
structure Expression where
  Line : Nat
  Comment : Str
  Name : Str
  Body : Str
deriving DecidableEq, Repr

/-- `Decoder` state: the unread input and the 1-indexed line counter
(`NewDecoder` starts the counter at 0; `readLine` pre-increments). -/
structure DecState where
  rem : Str
  line : Nat
deriving DecidableEq, Repr

/-- `NewDecoder` on a string reader. -/
def freshDec (content : Str) : DecState := ⟨content, 0⟩

/-- Split off one line: the text up to and including the first newline,
and the remainder.  Models `bufio.Reader.ReadString('\n')`. -/
def splitLine : Str → Str × Str
  | [] => ([], [])
  | c :: cs =>
    if c = '\n' then ([c], cs)
    else ((splitLine cs).1.cons c, (splitLine cs).2)

theorem splitLine_append (s : Str) :
    (splitLine s).1 ++ (splitLine s).2 = s := by
  induction s with
  | nil => simp [splitLine]
  | cons c cs ih =>
    by_cases hc : c = '\n'
    · simp [splitLine, hc]
    · simp [splitLine, hc, ih]

theorem splitLine_snd_le (s : Str) : (splitLine s).2.length ≤ s.length := by
  induction s with
  | nil => simp [splitLine]
  | cons c cs ih =>
    by_cases hc : c = '\n'
    · simp [splitLine, hc]
    · simp [splitLine, hc]; omega

theorem splitLine_snd_lt (c : Char) (cs : Str) :
    (splitLine (c :: cs)).2.length < (c :: cs).length := by
  by_cases hc : c = '\n'
  · simp [splitLine, hc]
  · simp [splitLine, hc]
    have := splitLine_snd_le cs
    omega

/-- `Decoder.readLine`: the next line (newline included when present), an
end-of-input flag (`ReadString` returns `io.EOF` exactly when no newline
was found), and the advanced state. -/
def readLineD (st : DecState) : Str × Bool × DecState :=
  ((splitLine st.rem).1,
   decide ((splitLine st.rem).1.getLast? ≠ some '\n'),
   ⟨(splitLine st.rem).2, st.line + 1⟩)

/-- The continuation-line loop inside `Decoder.Decode`: while the next
byte (one-byte lookahead) is a tab, read the line (`readLineD` is written
out: its line, end-of-input flag and advanced state), strip the leading
tab and append; stop at end of input.  Structural recursion on a
character budget: every iteration consumes at least one character
(`splitLine_snd_lt`), so a budget of `st.rem.length` never runs out. -/
def readContsF : Nat → DecState → Str × DecState
  | 0, st => ([], st)
  | Nat.succ f, st =>
    match st with
    | ⟨[], line⟩ => ([], ⟨[], line⟩)
    | ⟨c :: cs, line⟩ =>
      if c ≠ '\t' then ([], ⟨c :: cs, line⟩)
      else if (splitLine (c :: cs)).1.getLast? ≠ some '\n' then
        ((splitLine (c :: cs)).1.drop 1, ⟨(splitLine (c :: cs)).2, line + 1⟩)
      else
        ((splitLine (c :: cs)).1.drop 1 ++
           (readContsF f ⟨(splitLine (c :: cs)).2, line + 1⟩).1,
         (readContsF f ⟨(splitLine (c :: cs)).2, line + 1⟩).2)

/-- The continuation-line loop, with its sufficient budget. -/
def readConts (st : DecState) : Str × DecState := readContsF st.rem.length st

/-- `parseBody` (linebased.go): extract the command name and tail.  The Go
code takes `i := IndexAny(body, " \t\n")`, with `body[:i]`/`body[i:]`;
`takeWhile`/`dropWhile` of the complement perform the same split, and the
no-index case yields an empty tail exactly as Go returns `""`. -/
def parseBody (body : Str) : Str × Str :=
  let keep : Char → Bool := fun c => !(c = ' ' || c = '\t' || c = '\n')
  (trimSpaceU (body.takeWhile keep), trimLeftST (body.dropWhile keep))

/-- `makeExpr` (linebased.go). -/
def makeExpr (line : Nat) (comment body : Str) : Expression :=
  ⟨line, comment, (parseBody body).1, (parseBody body).2⟩

/-- The loop inside `Decoder.Decode`, with the accumulated comment buffer
as a parameter (the `body` builder is only written in the command branch,
which always returns, so it is always empty at the loop head).
Structural recursion on a line budget: each comment iteration consumes at
least one character, so a budget of `st.rem.length + 1` never runs out
(the zero case is unreachable from `decodeD`). -/
def decodeLoop : Nat → Str → DecState →
    Except SynErr (Option (Expression × DecState))
  | 0, _, _ => .ok none
  | Nat.succ f, comments, st =>
  if (readLineD st).2.1 = true ∧ (readLineD st).1 = [] then
    -- err != nil && line == "": end of input
    if comments.length > 0 then
      -- surface trailing comments as a blank expression
      .ok (some (makeExpr
        (if endsWith comments ['\n'] then (readLineD st).2.2.line
         else (readLineD st).2.2.line - 1) comments [], (readLineD st).2.2))
    else .ok none
  else if (readLineD st).1.head? = some '\n' then
    .ok (some (makeExpr (readLineD st).2.2.line comments (readLineD st).1,
               (readLineD st).2.2))
  else if (readLineD st).1.head? = some '#' then
    decodeLoop f (comments ++ (readLineD st).1) (readLineD st).2.2
  else if (readLineD st).1.head? = some ' ' ∨ (readLineD st).1.head? = some '\t' then
    .error ⟨(readLineD st).2.2.line, "unexpected whitespace at start of line".toList⟩
  else
    -- command: read continuation lines with one-byte lookahead
    .ok (some (makeExpr (readLineD st).2.2.line comments
                 ((readLineD st).1 ++ (readConts (readLineD st).2.2).1),
               (readConts (readLineD st).2.2).2))

/-- `Decoder.Decode` (linebased.go): the next `Expression`, end of input
(`.ok none` models `io.EOF`), or a `SyntaxError`. -/
def decodeD (st : DecState) : Except SynErr (Option (Expression × DecState)) :=
  decodeLoop (st.rem.length + 1) [] st

theorem splitLine_fst_nil {s : Str} (h : (splitLine s).1 = []) : s = [] := by
  cases s with
  | nil => rfl
  | cons c cs =>
    exfalso
    by_cases hc : c = '\n' <;> simp [splitLine, hc] at h

theorem readContsF_rem_le (fuel : Nat) (st : DecState) :
    (readContsF fuel st).2.rem.length ≤ st.rem.length := by
  induction fuel generalizing st with
  | zero => simp [readContsF]
  | succ f ih =>
    rcases st with ⟨_ | ⟨c, cs⟩, line⟩
    · simp [readContsF]
    · rw [readContsF]
      split
      · simp
      · split
        · exact Nat.le_of_lt (splitLine_snd_lt c cs)
        · have h1 := ih ⟨(splitLine (c :: cs)).2, line + 1⟩
          have h2 := splitLine_snd_lt c cs
          simp only [List.length_cons] at *
          omega

theorem readConts_rem_le (st : DecState) :
    (readConts st).2.rem.length ≤ st.rem.length :=
  readContsF_rem_le st.rem.length st

theorem readLineD_rem (st : DecState) :
    (readLineD st).2.2.rem = (splitLine st.rem).2 := rfl

theorem readLineD_line (st : DecState) :
    (readLineD st).2.2.line = st.line + 1 := rfl

/-- Reading a line from a nonempty input consumes at least one character. -/
theorem readLineD_rem_lt {st : DecState} (hne : st.rem ≠ []) :
    (readLineD st).2.2.rem.length < st.rem.length := by
  rw [readLineD_rem]
  rcases hn : st.rem with _ | ⟨c, cc⟩
  · exact absurd hn hne
  · exact splitLine_snd_lt c cc

/-- If the line read was nonempty, the input was nonempty. -/
theorem readLineD_fst_ne {st : DecState} {c : Char}
    (h : (readLineD st).1.head? = some c) : st.rem ≠ [] := by
  intro h0
  rw [readLineD] at h
  simp [h0, splitLine] at h

theorem decodeLoop_consumes {fuel : Nat} {cs : Str} {st : DecState}
    {e : Expression} {st' : DecState}
    (h : decodeLoop fuel cs st = .ok (some (e, st'))) :
    st'.rem.length < st.rem.length ∨ (st.rem = [] ∧ st'.rem = []) := by
  induction fuel generalizing cs st with
  | zero => rw [decodeLoop] at h; cases h
  | succ f ih =>
    rw [decodeLoop] at h
    by_cases h1 : (readLineD st).2.1 = true ∧ (readLineD st).1 = []
    · rw [if_pos h1] at h
      by_cases h2 : cs.length > 0
      · rw [if_pos h2] at h
        cases h
        right
        have h0 : st.rem = [] := splitLine_fst_nil h1.2
        refine ⟨h0, ?_⟩
        rw [readLineD_rem, h0]
        rfl
      · rw [if_neg h2] at h; cases h
    · rw [if_neg h1] at h
      by_cases h2 : (readLineD st).1.head? = some '\n'
      · rw [if_pos h2] at h
        cases h
        exact Or.inl (readLineD_rem_lt (readLineD_fst_ne h2))
      · rw [if_neg h2] at h
        by_cases h3 : (readLineD st).1.head? = some '#'
        · rw [if_pos h3] at h
          have hne : st.rem ≠ [] := readLineD_fst_ne h3
          have hstep := readLineD_rem_lt hne
          rcases ih h with hlt | ⟨_, hnil⟩
          · exact Or.inl (by omega)
          · left
            rw [hnil]
            simpa using List.length_pos.2 hne
        · rw [if_neg h3] at h
          by_cases h4 : (readLineD st).1.head? = some ' ' ∨
              (readLineD st).1.head? = some '\t'
          · rw [if_pos h4] at h; cases h
          · rw [if_neg h4] at h
            cases h
            left
            have hne : st.rem ≠ [] := by
              intro h0
              apply h1
              constructor <;> simp [readLineD, h0, splitLine]
            have hle := readConts_rem_le (readLineD st).2.2
            exact Nat.lt_of_le_of_lt hle (readLineD_rem_lt hne)

theorem decodeD_nil (k : Nat) : decodeD ⟨[], k⟩ = .ok none := rfl

theorem decodeD_consumes {st : DecState} {e : Expression} {st' : DecState}
    (h : decodeD st = .ok (some (e, st'))) :
    st'.rem.length < st.rem.length := by
  rcases decodeLoop_consumes h with hlt | ⟨hnil, _⟩
  · exact hlt
  · exfalso
    rcases st with ⟨rem, line⟩
    cases hnil
    rw [decodeD_nil] at h
    cases h

/-- The full stream of one `Decoder`, on a call budget: all expressions
`Decode` produces, and the terminal syntax error if the stream ends in
one.  Each produced expression consumes at least one character
(`decodeD_consumes`), so a budget of `st.rem.length + 1` never runs out. -/
def tokExprsF : Nat → DecState → List Expression × Option SynErr
  | 0, _ => ([], none)
  | Nat.succ f, st =>
    match decodeD st with
    | .error e => ([], some e)
    | .ok none => ([], none)
    | .ok (some (e, st')) =>
      ((tokExprsF f st').1.cons e, (tokExprsF f st').2)

/-- The full stream of one `Decoder`, with its sufficient budget. -/
def tokExprsD (st : DecState) : List Expression × Option SynErr :=
  tokExprsF (st.rem.length + 1) st

/-- The stream is independent of the budget once it is sufficient. -/
theorem tokExprsF_stable (fuel : Nat) (st : DecState)
    (hf : st.rem.length + 1 ≤ fuel) : tokExprsF fuel st = tokExprsD st := by
  revert st
  induction fuel using Nat.strong_induction_on with
  | _ f ihs =>
    intro st hf
    rcases f with _ | f
    · omega
    · rw [tokExprsD, tokExprsF]
      conv_rhs => rw [tokExprsF]
      cases h : decodeD st with
      | error e => rfl
      | ok o =>
        cases o with
        | none => rfl
        | some p =>
          obtain ⟨e, st'⟩ := p
          have hc := decodeD_consumes h
          have h1 : tokExprsF f st' = tokExprsD st' :=
            ihs f (by omega) st' (by omega)
          have h2 : tokExprsF st.rem.length st' = tokExprsD st' :=
            ihs st.rem.length (by omega) st' (by omega)
          simp only [h1, h2]

/-! ## Data model of the expansion engine (`doc.go`, `expander.go`) -/

/-- `Expanded` (doc.go): an `Expression` plus provenance.  The `Stack`
field holds `Expanded` values itself, so this is a nested inductive. -/
inductive Expanded where
  | mk (Expr : Expression) (File : Str) (Stack : List Expanded)

/-- The embedded `Expression`. -/
def Expanded.Expr : Expanded → Expression
  | .mk e _ _ => e

/-- The `File` field. -/
def Expanded.File : Expanded → Str
  | .mk _ f _ => f

/-- The `Stack` field. -/
def Expanded.Stack : Expanded → List Expanded
  | .mk _ _ s => s

/-- Promoted field of the embedded `Expression` (Go embedding). -/
def Expanded.Name (e : Expanded) : Str := e.Expr.Name

/-- Promoted field of the embedded `Expression` (Go embedding). -/
def Expanded.Body (e : Expanded) : Str := e.Expr.Body

/-- Promoted field of the embedded `Expression` (Go embedding). -/
def Expanded.Line (e : Expanded) : Nat := e.Expr.Line

/-- The Go assignment `expr.Stack = frames`. -/
def Expanded.withStack : Expanded → List Expanded → Expanded
  | .mk e f _, s => .mk e f s

/-- `Expanded.String` (doc.go) on raw name and body: name, then either the
preserved leading-newline tail verbatim or a single space and the
space-trimmed tail, terminated by one newline. -/
def exprString (name body : Str) : Str :=
  (name ++
    (if (trimSuffixNL body).head? = some '\n' then trimSuffixNL body
     else if trimLeftU (trimSuffixNL body) ≠ [] then
       ' ' :: trimLeftU (trimSuffixNL body)
     else [])) ++ ['\n']

/-- `Expanded.String` (doc.go). -/
def Expanded.StringD (e : Expanded) : Str := exprString e.Name e.Body

/-- `template` (expander.go): a stored definition.  The Go struct embeds
the defining `Expanded` (called `decl` here). -/
structure Template where
  decl : Expanded
  name : Str
  params : List Str
  body : Str

/-- The underlying cause of an `ExpressionError`, one constructor per
error construction site in the Go source, carrying the data the Go code
formats into the message. -/
inductive Cause where
  /-- A wrapped tokenizer `SyntaxError` message. -/
  | syntaxMsg (msg : Str)
  /-- "define: missing name argument". -/
  | defineMissingName
  /-- "define: name contains invalid characters". -/
  | defineInvalidName (name : Str)
  /-- Template redefinition, citing the prior definition's file and line. -/
  | redefined (name : Str) (file : Str) (line : Nat)
  /-- "include: missing filename". -/
  | includeMissing
  /-- Include path contains a slash. -/
  | includeSlash (path : Str)
  /-- Include path already carries the ".linebased" extension. -/
  | includeExt (path : Str)
  /-- "include cycle detected", with the rendered chain. -/
  | includeCycleE (chain : Str)
  /-- The filesystem failed to open the named entry. -/
  | openErr (path : Str)
  /-- "recursion detected in template", with the active frames. -/
  | recursion (name : Str) (frames : List Expanded)
  /-- Argument-count mismatch for a template call. -/
  | argCount (name : Str) (want got : Nat)
  /-- "unknown parameter reference". -/
  | unknownParam (name : Str)
  /-- Expansion produced an illegal nested `define`. -/
  | nestedDefine (tname : Str) (text : Str)

/-- The error value sticky in `ExpandingDecoder.err`: `io.EOF`, an
`ExpressionError` (offending `Expanded` plus cause), or fuel exhaustion
(an artifact of the fuel-based model, not a Go error). -/
inductive EErr where
  | eof
  | expr (at_ : Expanded) (cause : Cause)
  | fuel

/-- `stack` (expander.go): the call-stack frames plus the `seen`
membership set (a `map[string]bool` modelled as a duplicate-free list). -/
structure StackT where
  frames : List Expanded
  seen : List Str

/-- `stack.push`: always appends the frame; reports whether the name was
not already active. -/
def stackPush (s : StackT) (e : Expanded) : StackT × Bool :=
  (⟨s.frames ++ [e],
    if e.Name ∈ s.seen then s.seen else s.seen ++ [e.Name]⟩,
   decide (e.Name ∉ s.seen))

/-- `stack.pop`: drop the last frame and delete its name from `seen`.
Go panics on an empty stack; the engine never pops an empty stack, and
the model returns it unchanged. -/
def stackPop (s : StackT) : StackT :=
  match s.frames.getLast? with
  | none => s
  | some e => ⟨s.frames.dropLast, s.seen.filter (fun n => decide (n ≠ e.Name))⟩

/-- `ExpandingDecoder.pushInclude`: refuse a name already on the include
stack.  The stack is modelled top-at-head. -/
def pushIncludeD (inc : List Str) (name : Str) : Option (List Str) :=
  if name ∈ inc then none else some (name :: inc)

/-- `ExpandingDecoder.popInclude`. -/
def popIncludeD : List Str → List Str
  | [] => []
  | _ :: rest => rest

/-- `ExpandingDecoder.includeCycle`: render the chain bottom-to-top,
ending in the offending name. -/
def includeCycleD (inc : List Str) (next : Str) : Str :=
  List.intercalate " -> ".toList (inc.reverse ++ [next])

/-- `slices.Index`: first index of `x`, or `-1`. -/
def slicesIndex (l : List Str) (x : Str) : Int :=
  match l.findIdx? (fun y => decide (y = x)) with
  | some i => (i : Int)
  | none => -1

/-- An association-list lookup modelling Go map indexing (`d.defs[name]`,
`fstest.MapFS`). -/
def lookupA {α : Type} : List (Str × α) → Str → Option α
  | [], _ => none
  | (k, v) :: rest, n => if k = n then some v else lookupA rest n

/-- The filesystem collaborator (`fs.FS.Open` on an `fstest.MapFS`):
`none` models a file-open error (`fs.ErrNotExist`). -/
def fsOpen (fsys : List (Str × Str)) (name : Str) : Option Str :=
  lookupA fsys name

/-- `os.IsPathSeparator`-free `path.Clean`: generic element processing
(empty and `.` skipped, `..` pops).  Identity on the slash-free,
dot-free names the engine produces. -/
def cleanPath (p : Str) : Str :=
  if p = [] then ['.']
  else
    let rooted := p.head? = some '/'
    let outs := (p.splitOn '/').foldl
      (fun acc c =>
        if c = [] ∨ c = ['.'] then acc
        else if c = ['.', '.'] then
          if acc ≠ [] ∧ acc.getLast? ≠ some ['.', '.'] then acc.dropLast
          else if rooted then acc else acc ++ [c]
        else acc ++ [c]) []
    let joined := List.intercalate ['/'] outs
    if (if rooted then '/' :: joined else joined) = [] then ['.']
    else (if rooted then '/' :: joined else joined)

/-- `path.Join(root, name)` as used by `ExpandingDecoder.filePath`:
non-empty elements joined with a slash, then cleaned; empty when both
are empty. -/
def pathJoin (root name : Str) : Str :=
  match (if root = [] then [] else [root]) ++ (if name = [] then [] else [name]) with
  | [] => []
  | parts => cleanPath (List.intercalate ['/'] parts)

/-- `makeTemplate` (expander.go).  The Go function panics unless
`decl.Name == "define"`; its only caller guarantees that.  The name
check is `strings.ContainsAny(name, " \r\v\f")`. -/
def makeTemplateD (decl : Expanded) : Except Cause Template :=
  let hb := cutNL decl.Body
  let nr := cutField hb.1
  if nr.1 = [] then .error .defineMissingName
  else if nr.1.any (fun c => c = ' ' || c = '\x0d' || c = '\x0b' || c = '\x0c') then
    .error (.defineInvalidName nr.1)
  else .ok ⟨decl, nr.1, fieldsGo nr.2, hb.2⟩

/-! ## `os.Expand` (Go standard library, called by `expandTemplate`) -/

/-- `os.isShellSpecialVar`. -/
def isShellSpecialVar (c : Char) : Bool :=
  c = '*' || c = '#' || c = '$' || c = '@' || c = '!' || c = '?' ||
  ('0' ≤ c && c ≤ '9')

/-- `os.isAlphaNum`. -/
def isAlphaNumGo (c : Char) : Bool :=
  c = '_' || ('0' ≤ c && c ≤ '9') || ('a' ≤ c && c ≤ 'z') || ('A' ≤ c && c ≤ 'Z')

/-- The scan-to-closing-brace loop of `os.getShellName`, over the text
after the opening brace. -/
def braceName (rest : Str) : Str × Nat :=
  match rest.findIdx? (fun c => decide (c = '}')) with
  | none => ([], 1)
  | some 0 => ([], 2)
  | some k => (rest.take k, k + 2)

/-- `os.getShellName`: the name after a `$` and the number of characters
consumed. -/
def getShellName : Str → Str × Nat
  | [] => ([], 0)
  | '{' :: rest =>
    match rest with
    | a :: '}' :: _ => if isShellSpecialVar a then ([a], 3) else braceName rest
    | _ => braceName rest
  | c :: rest =>
    if isShellSpecialVar c then ([c], 1)
    else ((c :: rest).takeWhile isAlphaNumGo,
          ((c :: rest).takeWhile isAlphaNumGo).length)

/-- The `getParam` closure in `expandTemplate`: positional lookup of a
parameter reference (`slices.Index`), the matching argument trimmed of
one trailing newline; `none` for an unknown reference (the closure then
records the name and substitutes the empty string). -/
def getParamGo (params args : List Str) (name : Str) : Option Str :=
  let i := slicesIndex params name
  if 0 ≤ i then some (trimSuffixNL (args.getD i.toNat [])) else none

/-- `os.Expand` with the `expandTemplate` mapping closure, on a character
budget (each step consumes at least the leading character, so a budget of
`s.length` never runs out): returns the expanded text and the first
unknown parameter reference (the closure's `unknownParam` variable),
threaded through `u`. -/
def osExpandF (params args : List Str) : Nat → Str → Option Str → Str × Option Str
  | 0, _, u => ([], u)
  | _, [], u => ([], u)
  | Nat.succ f, '$' :: rest, u =>
    if rest.isEmpty then (['$'], u)
    else
      let nw := getShellName rest
      if nw.1 = [] ∧ 0 < nw.2 then
        -- invalid syntax: eat the characters
        osExpandF params args f (rest.drop nw.2) u
      else if nw.1 = [] then
        -- valid syntax but no name: keep the dollar
        (('$' :: (osExpandF params args f (rest.drop nw.2) u).1),
         (osExpandF params args f (rest.drop nw.2) u).2)
      else
        match getParamGo params args nw.1 with
        | some v =>
          ((v ++ (osExpandF params args f (rest.drop nw.2) u).1),
           (osExpandF params args f (rest.drop nw.2) u).2)
        | none =>
          (((osExpandF params args f (rest.drop nw.2) (if u = none then some nw.1 else u)).1),
           (osExpandF params args f (rest.drop nw.2) (if u = none then some nw.1 else u)).2)
  | Nat.succ f, c :: rest, u =>
    ((osExpandF params args f rest u).1.cons c,
     (osExpandF params args f rest u).2)

/-- `os.Expand` with the `expandTemplate` mapping closure. -/
def osExpandAcc (params args : List Str) (s : Str) (u : Option Str) :
    Str × Option Str :=
  osExpandF params args s.length s u

/-! ## `ExpandingDecoder` (expander.go) -/

/-- `ExpandingDecoder` state.  `decoderStack` and `includeStack` are
modelled top-at-head (Go appends at the end and reads the last element);
`callStack.frames` keeps the Go order (index 0 outermost). -/
structure EState where
  fsys : List (Str × Str)
  defs : List (Str × Template)
  root : Str
  decoderStack : List (DecState × Str)
  pending : List Expanded
  callStack : StackT
  includeStack : List Str
  err : Option EErr

/-- `ExpandingDecoder.define`: parse and store a template definition,
rejecting a redefinition. -/
def defineD (st : EState) (expr : Expanded) : Except Cause EState :=
  match makeTemplateD expr with
  | .error c => .error c
  | .ok t =>
    match lookupA st.defs t.name with
    | some prev => .error (.redefined t.name prev.decl.File prev.decl.Line)
    | none => .ok {st with defs := st.defs ++ [(t.name, t)]}

mutual

/-- `ExpandingDecoder.expand`: classify one expression — `define`,
`include`, blank pass-through, plain pass-through with a stack snapshot,
or template expansion.  `.ok none` models Go's `nil, nil` (handled
internally). -/
def expandE : Nat → EState → Expanded → (Except EErr (Option Expanded)) × EState
  | 0, st, _ => (.error .fuel, st)
  | Nat.succ fuel, st, expr =>
    if expr.Name = "define".toList then
      match defineD st expr with
      | .error c => (.error (.expr expr c), st)
      | .ok st' => (.ok none, st')
    else if expr.Name = "include".toList then
      if argsAt (parseArgsGo expr.Body 1) 0 = [] then
        (.error (.expr expr .includeMissing), st)
      else if (argsAt (parseArgsGo expr.Body 1) 0).contains '/' then
        (.error (.expr expr (.includeSlash (argsAt (parseArgsGo expr.Body 1) 0))), st)
      else if endsWith (argsAt (parseArgsGo expr.Body 1) 0) ".linebased".toList then
        (.error (.expr expr (.includeExt (argsAt (parseArgsGo expr.Body 1) 0))), st)
      else
        match pushIncludeD st.includeStack
            (argsAt (parseArgsGo expr.Body 1) 0 ++ ".linebased".toList) with
        | none =>
          (.error (.expr expr (.includeCycleE (includeCycleD st.includeStack
             (argsAt (parseArgsGo expr.Body 1) 0 ++ ".linebased".toList)))), st)
        | some inc' =>
          match fsOpen st.fsys (argsAt (parseArgsGo expr.Body 1) 0 ++ ".linebased".toList) with
          | none =>
            -- push then pop restores the include stack; surface the open error
            (.error (.expr expr (.openErr
               (argsAt (parseArgsGo expr.Body 1) 0 ++ ".linebased".toList))), st)
          | some content =>
            (.ok none,
             {st with includeStack := inc',
                      decoderStack :=
                        (freshDec content,
                         argsAt (parseArgsGo expr.Body 1) 0 ++ ".linebased".toList)
                          :: st.decoderStack})
    else if expr.Name = [] then
      (.ok (some expr), st)
    else
      match lookupA st.defs expr.Name with
      | none => (.ok (some (expr.withStack st.callStack.frames)), st)
      | some t =>
        if t.body = [] then (.ok (some (expr.withStack st.callStack.frames)), st)
        else expandTemplateE fuel st t expr

/-- `ExpandingDecoder.expandTemplate`: push the call (recursion check),
split arguments, decode the body and collect results; the pushed frame
is popped on each return placed after the successful push (the Go
`defer`), but not on the recursion-error return, which Go reaches before
installing the `defer`. -/
def expandTemplateE : Nat → EState → Template → Expanded →
    (Except EErr (Option Expanded)) × EState
  | 0, st, _, _ => (.error .fuel, st)
  | Nat.succ fuel, st, t, callsite0 =>
    -- The call site with the stack snapshot attached (set before the
    -- recursion check so error messages show the chain); written out in
    -- full at each use to keep the definition let-free.
    if (stackPush st.callStack (callsite0.withStack st.callStack.frames)).2 = false then
      (.error (.expr (callsite0.withStack st.callStack.frames)
         (.recursion (callsite0.withStack st.callStack.frames).Name
            (stackPush st.callStack (callsite0.withStack st.callStack.frames)).1.frames)),
       {st with callStack :=
          (stackPush st.callStack (callsite0.withStack st.callStack.frames)).1})
    else if (parseArgsGo (callsite0.withStack st.callStack.frames).Body
        (t.params.length : Int)).length ≠ t.params.length then
      -- the deferred pop runs on this return too
      (.error (.expr (callsite0.withStack st.callStack.frames)
         (.argCount t.name t.params.length
            (parseArgsGo (callsite0.withStack st.callStack.frames).Body
              (t.params.length : Int)).length)),
       {st with callStack :=
          stackPop (stackPush st.callStack (callsite0.withStack st.callStack.frames)).1})
    else
      match bodyLoop fuel
          {st with callStack :=
            (stackPush st.callStack (callsite0.withStack st.callStack.frames)).1}
          t (callsite0.withStack st.callStack.frames)
          (parseArgsGo (callsite0.withStack st.callStack.frames).Body
            (t.params.length : Int))
          (freshDec t.body) [] with
      | (.error e, st2) => (.error e, {st2 with callStack := stackPop st2.callStack})
      | (.ok expanded, st2) =>
        match expanded with
        | [] => (.ok none, {st2 with callStack := stackPop st2.callStack})
        | e :: rest =>
          (.ok (some e),
           {st2 with callStack := stackPop st2.callStack,
                     pending := st2.pending ++ rest})

/-- The body-decoding loop of `expandTemplate`: decode the template body
with a fresh tokenizer, substitute parameters in name and body, reject
unknown references and nested `define`, recursively expand, and collect
results in order (attaching the stack snapshot only when no deeper
expansion already did). -/
def bodyLoop : Nat → EState → Template → Expanded → List Str → DecState →
    List Expanded → (Except EErr (List Expanded)) × EState
  | 0, st, _, _, _, _, _ => (.error .fuel, st)
  | Nat.succ fuel, st, t, callsite, args, dec, acc =>
    match decodeD dec with
    | .ok none => (.ok acc, st)
    | .error syn =>
      (.error (.expr (Expanded.mk ⟨syn.Line, [], [], []⟩ t.decl.File [])
         (.syntaxMsg syn.Message)), st)
    | .ok (some (raw, dec')) =>
      match osExpandAcc t.params args raw.Name none with
      | (newName, u1) =>
        match osExpandAcc t.params args raw.Body u1 with
        | (newBody, u2) =>
          match u2 with
          | some un => (.error (.expr t.decl (.unknownParam un)), st)
          | none =>
            if newName = "define".toList then
              (.error (.expr callsite
                 (.nestedDefine t.name (exprString newName newBody))), st)
            else
              match expandE fuel st
                  (Expanded.mk ⟨raw.Line, raw.Comment, newName, newBody⟩ t.decl.File []) with
              | (.error e, st') => (.error e, st')
              | (.ok none, st') => bodyLoop fuel st' t callsite args dec' acc
              | (.ok (some r), st') =>
                bodyLoop fuel st' t callsite args dec'
                  (acc ++ [if r.Stack.isEmpty then r.withStack st'.callStack.frames else r])

end

/-- The `SyntaxError` wrapping in `ExpandingDecoder.Decode`. -/
def synWrap (root file : Str) (syn : SynErr) : EErr :=
  .expr (Expanded.mk ⟨syn.Line, [], [], []⟩ (pathJoin root file) [])
    (.syntaxMsg syn.Message)

/-- `ExpandingDecoder.Decode`: sticky error first, then drain pending,
then read from the top decoder (popping finished includes), classify and
expand.  `.error .eof` models `io.EOF`, which Go also stores in `d.err`. -/
def decodeE : Nat → EState → (Except EErr Expanded) × EState
  | 0, st => (.error .fuel, st)
  | Nat.succ fuel, st =>
    match st.err with
    | some e => (.error e, st)
    | none =>
      match st.pending with
      | e :: rest => (.ok e, {st with pending := rest})
      | [] =>
        match st.decoderStack with
        | [] => (.error .eof, {st with err := some .eof})
        | (dst, file) :: restFrames =>
          match decodeD dst with
          | .ok none =>
            decodeE fuel {st with decoderStack := restFrames,
                                  includeStack := popIncludeD st.includeStack}
          | .error syn =>
            (.error (synWrap st.root file syn),
             {st with err := some (synWrap st.root file syn)})
          | .ok (some (raw, dst')) =>
            match expandE fuel
                {st with decoderStack := (dst', file) :: restFrames}
                (Expanded.mk raw (pathJoin st.root file) []) with
            | (.error e, st2) => (.error e, {st2 with err := some e})
            | (.ok none, st2) => decodeE fuel st2
            | (.ok (some r), st2) => (.ok r, st2)

/-- `NewExpandingDecoder`: open the entry file; a failure pre-poisons the
engine with the wrapped open error (`File` is the raw name, line 1). -/
def initE (name : Str) (fsys : List (Str × Str)) : EState :=
  match fsOpen fsys name with
  | none =>
    { fsys := fsys, defs := [], root := [], decoderStack := [], pending := [],
      callStack := ⟨[], []⟩, includeStack := [],
      err := some (.expr (Expanded.mk ⟨1, [], [], []⟩ name []) (.openErr name)) }
  | some content =>
    { fsys := fsys, defs := [], root := [], decoderStack := [(freshDec content, name)],
      pending := [], callStack := ⟨[], []⟩, includeStack := [name], err := none }

/-- Drive `Decode` until end-of-input or an error: the produced stream
and the final engine state. -/
def runE : Nat → EState → List Expanded × EState
  | 0, st => ([], st)
  | Nat.succ n, st =>
    match decodeE (Nat.succ n) st with
    | (.ok e, st') => ((runE n st').1.cons e, (runE n st').2)
    | (.error _, st') => ([], st')

/-! ## Claims -/

theorem trimSuffixNL_cases (s : Str) :
    s = trimSuffixNL s ∨ s = trimSuffixNL s ++ ['\n'] := by
  by_cases h : s.getLast? = some '\n'
  · right
    rw [trimSuffixNL, if_pos h]
    have hne : s ≠ [] := by
      intro h0; rw [h0] at h; simp at h
    have h2 : s.getLast hne = '\n' := by
      rw [List.getLast?_eq_getLast s hne] at h
      exact Option.some.inj h
    conv_lhs => rw [← List.dropLast_append_getLast hne, h2]
  · left
    rw [trimSuffixNL, if_neg h]

/-- C10: `Args.At` is total: out-of-range indices (negative or at least
`len(a)`) yield the empty string, in-range indices yield the element with
at most one trailing newline removed, and the internal slice indexing
never panics (`argsAtChecked` never returns `none`). -/
theorem argsAt_total (a : List Str) (i : Int) :
    argsAtChecked a i = some (argsAt a i) ∧
    ((i < 0 ∨ (a.length : Int) ≤ i) → argsAt a i = []) ∧
    (∀ (h1 : i.toNat < a.length), 0 ≤ i →
      a.get ⟨i.toNat, h1⟩ = argsAt a i ∨
      a.get ⟨i.toNat, h1⟩ = argsAt a i ++ ['\n']) := by
  refine ⟨?_, ?_, ?_⟩
  · by_cases h : i < 0 ∨ (a.length : Int) ≤ i
    · rw [argsAtChecked, if_pos h, argsAt, dif_pos h]
    · rw [argsAtChecked, if_neg h, argsAt, dif_neg h]
      rw [goSliceIndex, dif_pos (by omega)]
      rfl
  · intro h
    rw [argsAt, dif_pos h]
  · intro h1 h0
    have h : ¬ (i < 0 ∨ (a.length : Int) ≤ i) := by omega
    rw [argsAt, dif_neg h]
    exact trimSuffixNL_cases _

/-- Witness for C10 at concrete inputs. -/
theorem argsAt_total_witness :
    (argsAt [['a', '\n']] 2 = [] ∧
     ['a', '\n'] = argsAt [['a', '\n']] 0 ++ ['\n']) := by
  have h2 := argsAt_total [['a', '\n']] 2
  have h0 := argsAt_total [['a', '\n']] 0
  refine ⟨h2.2.1 (by decide), ?_⟩
  rcases h0.2.2 (by decide) (by decide) with h | h
  · exact absurd h (by decide)
  · exact h

/-- The `greet Alice` scenario filesystem (C4). -/
def greetFS : List (Str × Str) :=
  [("main.lb".toList,
    "define greet name\n\techo Hello, $name!\ngreet Alice\n".toList)]

/-- C4: the script defining `greet name` with body `echo Hello, $name!`
and calling `greet Alice` makes the engine emit exactly one expression,
whose reconstructed source text is `echo Hello, Alice!\n` — the name part
`echo`, the body part `Hello, Alice!` (the stored `Body` field carries
the trailing newline) — and the stream then ends cleanly. -/
theorem greet_alice_expansion :
    (runE 32 (initE "main.lb".toList greetFS)).1.map
        (fun e => (e.Name, e.StringD, trimSuffixNL e.Body)) =
      [("echo".toList, "echo Hello, Alice!\n".toList, "Hello, Alice!".toList)] ∧
    (runE 32 (initE "main.lb".toList greetFS)).2.err = some .eof := by
  constructor <;> rfl

/-- The include-cycle scenario filesystem of C9: `main.lb` includes
`other.lb` and vice versa. -/
def cycleFS : List (Str × Str) :=
  [("main.lb".toList, "include other.lb\n".toList),
   ("other.lb".toList, "include main.lb\n".toList)]

/-- C9 (failing input): on the claimed scenario the engine does not
report an include cycle at all: `include other.lb` has `.linebased`
appended, the open of `other.lb.linebased` fails, and the engine
poisons itself with that open error, located at `main.lb:1`. -/
theorem include_cycle_scenario_actual :
    (runE 16 (initE "main.lb".toList cycleFS)).1 = [] ∧
    (runE 16 (initE "main.lb".toList cycleFS)).2.err =
      some (.expr
        (Expanded.mk ⟨1, [], "include".toList, "other.lb\n".toList⟩
          "main.lb".toList [])
        (.openErr "other.lb.linebased".toList)) := by
  constructor <;> rfl

/-- An engine state with nothing loaded (used by concrete instances). -/
def emptyES : EState := ⟨[], [], [], [], [], ⟨[], []⟩, [], none⟩

/-- A `define` expression whose template name contains the control
character U+0001 (raw body `define \x01foo p` with body line `echo hi`). -/
def ctrlDecl : Expanded :=
  Expanded.mk ⟨1, [], "define".toList, ('\x01' :: "foo p\necho hi\n".toList)⟩
    "m.lb".toList []

/-- C8 (counterexample): a template name containing the control character
U+0001 is accepted by `makeTemplate` — the `ContainsAny(" \r\v\f")` check
does not cover control characters — and `define` stores the template. -/
theorem define_control_char_accepted :
    makeTemplateD ctrlDecl =
      .ok ⟨ctrlDecl, '\x01' :: "foo".toList, ["p".toList], "echo hi\n".toList⟩ ∧
    ('\x01' :: "foo".toList).any (fun c => decide (c.toNat < 32)) = true ∧
    defineD emptyES ctrlDecl =
      .ok { emptyES with defs :=
        [('\x01' :: "foo".toList,
          ⟨ctrlDecl, '\x01' :: "foo".toList, ["p".toList], "echo hi\n".toList⟩)] } := by
  refine ⟨rfl, rfl, rfl⟩

/-- C8 (amended): a `define` whose header yields an empty template name
is rejected with the definition error and nothing is stored (the engine
state is returned unchanged); and every name `makeTemplate` accepts is
nonempty and contains no whitespace at all — whitespace in a name is
structurally impossible because `cutField` splits at the first whitespace
— while control characters are not rejected (see the counterexample). -/
theorem define_name_validation (fuel : Nat) (st : EState) (decl : Expanded) :
    ((cutField (cutNL decl.Body).1).1 = [] →
      makeTemplateD decl = .error .defineMissingName ∧
      (decl.Name = "define".toList →
        expandE (fuel + 1) st decl = (.error (.expr decl .defineMissingName), st))) ∧
    (∀ t, makeTemplateD decl = .ok t →
      t.name ≠ [] ∧ ∀ c ∈ t.name, isUSpace c = false) := by
  constructor
  · intro hempty
    have hmk : makeTemplateD decl = .error .defineMissingName := by
      rw [makeTemplateD]
      simp [hempty]
    refine ⟨hmk, fun hdef => ?_⟩
    rw [expandE, if_pos hdef, defineD, hmk]
  · intro t hok
    rw [makeTemplateD] at hok
    by_cases hemp : (cutField (cutNL decl.Body).1).1 = []
    · simp [hemp] at hok
    · simp only [if_neg hemp] at hok
      split at hok
      · cases hok
      · cases hok
        refine ⟨hemp, fun c hc => ?_⟩
        rw [cutField] at hc
        simp only at hc
        have := List.mem_takeWhile_imp hc
        simpa using this

/-- A `define` expression with no name at all (`define` alone on its
line, body starting with the continuation newline). -/
def noNameDecl : Expanded :=
  Expanded.mk ⟨1, [], "define".toList, "\nx\n".toList⟩ "m.lb".toList []

/-- Witness for C8's amended theorem at a concrete input. -/
theorem define_name_validation_witness :
    makeTemplateD noNameDecl = .error .defineMissingName ∧
    expandE 3 emptyES noNameDecl =
      (.error (.expr noNameDecl .defineMissingName), emptyES) := by
  have h := (define_name_validation 2 emptyES noNameDecl).1 (by decide)
  exact ⟨h.1, h.2 rfl⟩

/-- The active frame used by C1's witness. -/
def w1frame : Expanded :=
  Expanded.mk ⟨1, [], "f".toList, "\n".toList⟩ "m.lb".toList []

/-- An engine state in which template name `f` is already mid-expansion. -/
def w1st : EState := ⟨[], [], [], [], [], ⟨[w1frame], ["f".toList]⟩, [], none⟩

/-- A stored template named `f` (used by C1's witness). -/
def w1t : Template := ⟨w1frame, "f".toList, [], "x\n".toList⟩

/-- A call of `f` while `f` is active (used by C1's witness). -/
def w1c : Expanded :=
  Expanded.mk ⟨2, [], "f".toList, "\n".toList⟩ "m.lb".toList []

/-- C1: whenever a template call's name is already active on the Call
Stack (the `seen` set mirrors the frame names), `expandTemplate` returns
the recursion error immediately — no template-body expansion happens, and
the state is untouched except for the frame appended by the failed push. -/
theorem recursion_active_fails (fuel : Nat) (st : EState) (t : Template)
    (c : Expanded)
    (hwf : ∀ n, n ∈ st.callStack.seen ↔ n ∈ st.callStack.frames.map Expanded.Name)
    (hact : c.Name ∈ st.callStack.frames.map Expanded.Name) :
    expandTemplateE (fuel + 1) st t c =
      (.error (.expr (c.withStack st.callStack.frames)
         (.recursion c.Name
            (st.callStack.frames ++ [c.withStack st.callStack.frames]))),
       {st with callStack :=
         ⟨st.callStack.frames ++ [c.withStack st.callStack.frames],
          st.callStack.seen⟩}) := by
  have hname : (c.withStack st.callStack.frames).Name = c.Name := by
    cases c; rfl
  have hmem : c.Name ∈ st.callStack.seen := (hwf _).2 hact
  rw [expandTemplateE]
  rw [if_pos (by simp [stackPush, hname, hmem])]
  simp [stackPush, hname, hmem]

/-- Witness for C1 at a concrete input: calling `f` while `f` is active. -/
theorem recursion_active_fails_witness :
    (w1c.Name ∈ w1st.callStack.frames.map Expanded.Name) ∧
    expandTemplateE 4 w1st w1t w1c =
      (.error (.expr (w1c.withStack w1st.callStack.frames)
         (.recursion w1c.Name
            (w1st.callStack.frames ++ [w1c.withStack w1st.callStack.frames]))),
       {w1st with callStack :=
         ⟨w1st.callStack.frames ++ [w1c.withStack w1st.callStack.frames],
          w1st.callStack.seen⟩}) :=
  ⟨by decide, recursion_active_fails 3 w1st w1t w1c (fun _ => Iff.rfl) (by decide)⟩

theorem decodeE_sets_err (fuel : Nat) (st : EState) :
    ∀ e, (decodeE fuel st).1 = .error e → e ≠ .fuel →
      (decodeE fuel st).2.err = some e := by
  induction fuel generalizing st with
  | zero =>
    intro e he hf
    rw [decodeE] at he
    cases he
    exact absurd rfl hf
  | succ f ih =>
    intro e
    rw [decodeE]
    split
    · next e0 heq =>
      intro he _
      cases he
      exact heq
    · split
      · intro he _
        cases he
      · split
        · intro he _
          cases he
          rfl
        · split
          · intro he hf
            exact ih _ e he hf
          · intro he _
            cases he
            rfl
          · split
            · intro he _
              cases he
              rfl
            · intro he hf
              exact ih _ e he hf
            · intro he _
              cases he

/-- C2: once `Decode` returns an error — other than end-of-input, and
other than the model's fuel marker — every later call returns that same
error with the state unchanged: the error was recorded in the sticky
`err` field, which `Decode` checks first. -/
theorem decode_error_sticky (fuel : Nat) (st : EState) (e : EErr)
    (st' : EState) (h : decodeE fuel st = (.error e, st'))
    (heof : e ≠ .eof) (hf : e ≠ .fuel) (fuel' : Nat) :
    decodeE (fuel' + 1) st' = (.error e, st') := by
  have h2 : (decodeE fuel st).2 = st' := by rw [h]
  have herr : st'.err = some e := by
    rw [← h2]
    exact decodeE_sets_err fuel st e (by rw [h]) hf
  rw [decodeE, herr]

/-- The engine state after opening a script whose first line starts with
a space (a tokenizer syntax error), used by C2's witness. -/
def synFS : List (Str × Str) := [("m.lb".toList, " x\n".toList)]

/-- The error value produced on `synFS` (used by C2's witness). -/
def synE : EErr :=
  .expr (Expanded.mk ⟨1, [], [], []⟩ "m.lb".toList [])
    (.syntaxMsg "unexpected whitespace at start of line".toList)

/-- Witness for C2 at a concrete input: after the syntax error, a later
`Decode` call returns the identical error and state. -/
theorem decode_error_sticky_witness :
    decodeE 8 (initE "m.lb".toList synFS) =
      (.error synE, (decodeE 8 (initE "m.lb".toList synFS)).2) ∧
    decodeE 3 (decodeE 8 (initE "m.lb".toList synFS)).2 =
      (.error synE, (decodeE 8 (initE "m.lb".toList synFS)).2) := by
  have h : decodeE 8 (initE "m.lb".toList synFS) =
      (.error synE, (decodeE 8 (initE "m.lb".toList synFS)).2) := rfl
  exact ⟨h, decode_error_sticky 8 _ synE _ h
    (fun hh => nomatch hh) (fun hh => nomatch hh) 2⟩

/-- Recognizer for the recursion-detection error. -/
def isRecE : EErr → Bool
  | .expr _ (.recursion _ _) => true
  | _ => false

/-- `isRecE` on the optional sticky error. -/
def optIsRecE : Option EErr → Bool
  | some e => isRecE e
  | none => false

/-- The direct-recursion script of C6's counterexample: `f` calls `f`. -/
def recFS : List (Str × Str) :=
  [("m.lb".toList, "define f\n\tf\nf\n".toList)]

/-- C6 (counterexample): after the recursion-detection error on `define
f / f` calling itself, the engine's Call Stack still holds one frame —
the duplicate pushed by the failed `push` is never popped (the `defer`
is installed only after the check), so the stack does not return to its
pre-call state (it was empty before the top-level call); the `seen` set
even desynchronizes (the unwinding pop deleted the name). -/
theorem frame_left_on_recursion_error :
    (runE 32 (initE "m.lb".toList recFS)).2.callStack.frames.length = 1 ∧
    (runE 32 (initE "m.lb".toList recFS)).2.callStack.seen = [] ∧
    optIsRecE (runE 32 (initE "m.lb".toList recFS)).2.err = true := by
  refine ⟨rfl, rfl, rfl⟩

/-- Deleting an absent name is the identity (set semantics of the Go map
delete). -/
theorem filter_ne_of_not_mem {l : List Str} {a : Str} (h : a ∉ l) :
    l.filter (fun n => decide (n ≠ a)) = l := by
  induction l with
  | nil => rfl
  | cons x xs ih =>
    have hx : x ≠ a := by
      intro h0; exact h (h0 ▸ List.mem_cons_self x xs)
    have hxs : a ∉ xs := fun h0 => h (List.mem_cons_of_mem x h0)
    rw [List.filter_cons, if_pos (by simpa using hx), ih hxs]

/-- A successful `push` followed by the deferred `pop` restores the
stack. -/
theorem stackPop_stackPush (s : StackT) (e : Expanded) (h : e.Name ∉ s.seen) :
    stackPop (stackPush s e).1 = s := by
  rw [stackPush, stackPop]
  simp only [if_neg h]
  rw [List.getLast?_concat]
  simp only [List.dropLast_concat]
  rw [List.filter_append]
  rw [filter_ne_of_not_mem h]
  simp

/-- Restoration of the Call Stack: every run of `expand`,
`expandTemplate` or the body loop either leaves the Call Stack exactly as
it found it, or returns the recursion-detection error (whose failed push
leaves its frame behind). -/
theorem callstack_restored (fuel : Nat) :
    (∀ st e, (expandE fuel st e).2.callStack = st.callStack ∨
       (∃ er, (expandE fuel st e).1 = .error er ∧ isRecE er = true)) ∧
    (∀ st t c, (expandTemplateE fuel st t c).2.callStack = st.callStack ∨
       (∃ er, (expandTemplateE fuel st t c).1 = .error er ∧ isRecE er = true)) ∧
    (∀ st t c args dec acc,
       (bodyLoop fuel st t c args dec acc).2.callStack = st.callStack ∨
       (∃ er, (bodyLoop fuel st t c args dec acc).1 = .error er ∧
         isRecE er = true)) := by
  induction fuel with
  | zero =>
    refine ⟨fun st e => Or.inl rfl, fun st t c => Or.inl rfl,
      fun st t c args dec acc => Or.inl rfl⟩
  | succ f ih =>
    obtain ⟨ihE, ihT, ihB⟩ := ih
    have hdef : ∀ (st : EState) (e : Expanded) (st' : EState),
        defineD st e = .ok st' → st'.callStack = st.callStack := by
      intro st e st' h
      rw [defineD] at h
      split at h
      · cases h
      · split at h
        · cases h
        · cases h
          rfl
    have hB : ∀ st t c args dec acc,
        (bodyLoop (f + 1) st t c args dec acc).2.callStack = st.callStack ∨
        (∃ er, (bodyLoop (f + 1) st t c args dec acc).1 = .error er ∧
          isRecE er = true) := by
      intro st t c args dec acc
      rw [bodyLoop]
      split
      · exact Or.inl rfl
      · exact Or.inl rfl
      · split
        · split
          · split
            · exact Or.inl rfl
            · split
              · exact Or.inl rfl
              · split
                · next e1 st2 heq =>
                  rcases ihE st _ with h1 | ⟨er, her, hrec⟩
                  · rw [heq] at h1
                    exact Or.inl h1
                  · rw [heq] at her
                    cases her
                    exact Or.inr ⟨e1, rfl, hrec⟩
                · next st2 heq =>
                  rcases ihE st _ with h1 | ⟨er, her, hrec⟩
                  · rw [heq] at h1
                    rcases ihB st2 t c args _ acc with h2 | h2
                    · exact Or.inl (h2.trans h1)
                    · exact Or.inr h2
                  · rw [heq] at her
                    cases her
                · next r st2 heq =>
                  rcases ihE st _ with h1 | ⟨er, her, hrec⟩
                  · rw [heq] at h1
                    rcases ihB st2 t c args _ _ with h2 | h2
                    · exact Or.inl (h2.trans h1)
                    · exact Or.inr h2
                  · rw [heq] at her
                    cases her
    have hT : ∀ st t c,
        (expandTemplateE (f + 1) st t c).2.callStack = st.callStack ∨
        (∃ er, (expandTemplateE (f + 1) st t c).1 = .error er ∧
          isRecE er = true) := by
      intro st t c
      rw [expandTemplateE]
      split
      · exact Or.inr ⟨_, rfl, rfl⟩
      · next hpush =>
        have hnotin : (c.withStack st.callStack.frames).Name ∉ st.callStack.seen := by
          have : (stackPush st.callStack (c.withStack st.callStack.frames)).2 = true := by
            cases hb : (stackPush st.callStack (c.withStack st.callStack.frames)).2
            · exact absurd hb hpush
            · rfl
          simpa [stackPush] using this
        have hrestore :
            stackPop (stackPush st.callStack (c.withStack st.callStack.frames)).1 =
              st.callStack := stackPop_stackPush _ _ hnotin
        split
        · exact Or.inl hrestore
        · split
          · next e1 st2 heq =>
            rcases ihB _ t (c.withStack st.callStack.frames) _ _ [] with h1 | ⟨er, her, hrec⟩
            · rw [heq] at h1
              left
              show (stackPop st2.callStack) = st.callStack
              rw [h1]
              exact hrestore
            · rw [heq] at her
              cases her
              exact Or.inr ⟨e1, rfl, hrec⟩
          · next expanded st2 heq =>
            have h1 : st2.callStack =
                (stackPush st.callStack (c.withStack st.callStack.frames)).1 := by
              rcases ihB _ t (c.withStack st.callStack.frames) _ _ [] with h1 | ⟨er, her, hrec⟩
              · rw [heq] at h1
                exact h1
              · rw [heq] at her
                cases her
            split
            · left
              show (stackPop st2.callStack) = st.callStack
              rw [h1]
              exact hrestore
            · left
              show (stackPop st2.callStack) = st.callStack
              rw [h1]
              exact hrestore
    refine ⟨?_, hT, hB⟩
    intro st e
    rw [expandE]
    repeat' split
    all_goals
      first
      | exact Or.inl rfl
      | (rename_i st2 heq; exact Or.inl (hdef st e st2 heq))
      | exact ihT st _ e

/-- C6 (amended): the frame pushed for a template call is popped on every
exit path that does not involve recursion detection — success, argument
count mismatch, body syntax error, unknown parameter, nested define, or
a non-recursion failure deeper in the recursion — so the Call Stack then
returns to its pre-call state; on a recursion-detection error (at this
call or below it) the frame pushed by the failed push remains. -/
theorem frame_popped_unless_recursion (fuel : Nat) (st : EState)
    (t : Template) (c : Expanded)
    (hnr : ∀ er, (expandTemplateE fuel st t c).1 = .error er →
      isRecE er = false) :
    (expandTemplateE fuel st t c).2.callStack = st.callStack := by
  rcases (callstack_restored fuel).2.1 st t c with h | ⟨er, her, hrec⟩
  · exact h
  · rw [hnr er her] at hrec
    cases hrec

/-- A two-parameter template (used by C6's witness). -/
def w6t : Template :=
  ⟨w1frame, "g".toList, ["x".toList, "y".toList], "echo hi\n".toList⟩

/-- A call of `g` with only one argument (used by C6's witness). -/
def w6c : Expanded :=
  Expanded.mk ⟨1, [], "g".toList, "a\n".toList⟩ "m.lb".toList []

/-- Witness for C6's amended theorem: an argument-count mismatch pops the
frame and leaves the Call Stack as it was. -/
theorem frame_popped_unless_recursion_witness :
    (expandTemplateE 5 emptyES w6t w6c).2.callStack = emptyES.callStack :=
  frame_popped_unless_recursion 5 emptyES w6t w6c
    (fun er her => by cases her; rfl)

theorem readContsF_line_le (fuel : Nat) (st : DecState) :
    st.line ≤ (readContsF fuel st).2.line := by
  induction fuel generalizing st with
  | zero => simp [readContsF]
  | succ f ih =>
    rcases st with ⟨_ | ⟨c, cs⟩, line⟩
    · simp [readContsF]
    · rw [readContsF]
      split
      · simp
      · split
        · simp
        · have := ih ⟨(splitLine (c :: cs)).2, line + 1⟩
          simp only at this ⊢
          omega

/-- Line accounting for one `Decode`: the produced expression's line is
strictly after the state's line counter (at least not before it when
comments were already accumulated), and the advanced counter does not
precede it. -/
theorem decodeLoop_line {fuel : Nat} {cs : Str} {st : DecState}
    {e : Expression} {st' : DecState}
    (h : decodeLoop fuel cs st = .ok (some (e, st'))) :
    (st.line < e.Line ∨ (cs ≠ [] ∧ st.line ≤ e.Line)) ∧ e.Line ≤ st'.line := by
  induction fuel generalizing cs st with
  | zero => rw [decodeLoop] at h; cases h
  | succ f ih =>
    rw [decodeLoop] at h
    by_cases h1 : (readLineD st).2.1 = true ∧ (readLineD st).1 = []
    · rw [if_pos h1] at h
      by_cases h2 : cs.length > 0
      · rw [if_pos h2] at h
        cases h
        have hline : (readLineD st).2.2.line = st.line + 1 := readLineD_line st
        have hcs : cs ≠ [] := by
          intro h0; rw [h0] at h2; simp at h2
        by_cases hnl : endsWith cs ['\n']
        · rw [if_pos hnl]
          constructor
          · left; show st.line < (readLineD st).2.2.line; omega
          · show (readLineD st).2.2.line ≤ (readLineD st).2.2.line; omega
        · rw [if_neg hnl]
          constructor
          · right
            refine ⟨hcs, ?_⟩
            show st.line ≤ (readLineD st).2.2.line - 1
            omega
          · show (readLineD st).2.2.line - 1 ≤ (readLineD st).2.2.line
            omega
      · rw [if_neg h2] at h; cases h
    · rw [if_neg h1] at h
      by_cases h2 : (readLineD st).1.head? = some '\n'
      · rw [if_pos h2] at h
        cases h
        have hline : (readLineD st).2.2.line = st.line + 1 := readLineD_line st
        constructor
        · left
          show st.line < (readLineD st).2.2.line
          omega
        · show (readLineD st).2.2.line ≤ (readLineD st).2.2.line
          omega
      · rw [if_neg h2] at h
        by_cases h3 : (readLineD st).1.head? = some '#'
        · rw [if_pos h3] at h
          have hline : (readLineD st).2.2.line = st.line + 1 := readLineD_line st
          rcases ih h with ⟨hlo, hhi⟩
          refine ⟨Or.inl ?_, hhi⟩
          rcases hlo with hlt | ⟨_, hle⟩
          · omega
          · omega
        · rw [if_neg h3] at h
          by_cases h4 : (readLineD st).1.head? = some ' ' ∨
              (readLineD st).1.head? = some '\t'
          · rw [if_pos h4] at h; cases h
          · rw [if_neg h4] at h
            cases h
            have hline : (readLineD st).2.2.line = st.line + 1 := readLineD_line st
            have hconts := readContsF_line_le (readLineD st).2.2.rem.length
              (readLineD st).2.2
            refine ⟨Or.inl ?_, ?_⟩
            · show st.line < (readLineD st).2.2.line
              omega
            · show (readLineD st).2.2.line ≤ (readConts (readLineD st).2.2).2.line
              exact hconts

theorem decodeD_line {st : DecState} {e : Expression} {st' : DecState}
    (h : decodeD st = .ok (some (e, st'))) :
    st.line < e.Line ∧ e.Line ≤ st'.line := by
  rcases decodeLoop_line h with ⟨hlo, hhi⟩
  rcases hlo with hlt | ⟨hne, _⟩
  · exact ⟨hlt, hhi⟩
  · exact absurd rfl hne

/-- The stream's line numbers are all beyond the current counter and
strictly increasing. -/
theorem tokExprsF_lines (fuel : Nat) (st : DecState) :
    (∀ e ∈ (tokExprsF fuel st).1, st.line < e.Line) ∧
    ((tokExprsF fuel st).1.map Expression.Line).Chain' (· < ·) := by
  induction fuel generalizing st with
  | zero => simp [tokExprsF]
  | succ f ih =>
    rw [tokExprsF]
    cases h : decodeD st with
    | error e => simp
    | ok o =>
      cases o with
      | none => simp
      | some p =>
        obtain ⟨e, st'⟩ := p
        obtain ⟨h1, h2⟩ := decodeD_line h
        obtain ⟨ihm, ihc⟩ := ih st'
        constructor
        · intro e' he'
          simp only [List.mem_cons] at he'
          rcases he' with rfl | he'
          · exact h1
          · exact Nat.lt_of_lt_of_le h1 (Nat.le_trans h2 (Nat.le_of_lt (ihm e' he')))
        · simp only [List.map_cons]
          rw [List.chain'_cons']
          refine ⟨?_, ihc⟩
          intro b hb
          rcases hhead : ((tokExprsF f st').1.map Expression.Line).head? with _ | b0
          · rw [hhead] at hb; cases hb
          · rw [hhead] at hb
            cases hb
            have hbm : b ∈ (tokExprsF f st').1.map Expression.Line :=
              List.mem_of_mem_head? hhead
            rcases List.mem_map.mp hbm with ⟨e', he', rfl⟩
            exact Nat.lt_of_le_of_lt h2 (ihm e' he')

/-- C7: every expression a `Decoder` produces from a fresh stream has a
strictly positive line number, and no two expressions of the same stream
share a line number (the line numbers are in fact strictly increasing). -/
theorem lines_positive_unique (src : Str) :
    (∀ e ∈ (tokExprsD (freshDec src)).1, 0 < e.Line) ∧
    ((tokExprsD (freshDec src)).1.map Expression.Line).Pairwise (· ≠ ·) := by
  obtain ⟨hm, hc⟩ := tokExprsF_lines ((freshDec src).rem.length + 1) (freshDec src)
  refine ⟨hm, ?_⟩
  have hp : ((tokExprsD (freshDec src)).1.map Expression.Line).Pairwise (· < ·) :=
    List.chain'_iff_pairwise.mp hc
  exact hp.imp Nat.ne_of_lt

theorem tokExprsD_cons {ds : DecState} {e : Expression} {ds' : DecState}
    (h : decodeD ds = .ok (some (e, ds'))) :
    (tokExprsD ds).1 = e :: (tokExprsD ds').1 := by
  have hc := decodeD_consumes h
  have hst : tokExprsF ds.rem.length ds' = tokExprsD ds' :=
    tokExprsF_stable ds.rem.length ds' (by omega)
  rw [tokExprsD, tokExprsF, h]
  show (tokExprsF ds.rem.length ds').1.cons e = e :: (tokExprsD ds').1
  rw [hst]

theorem tokExprsD_nil_of_none {ds : DecState} (h : decodeD ds = .ok none) :
    (tokExprsD ds).1 = [] := by
  rw [tokExprsD, tokExprsF, h]

theorem tokExprsD_nil_of_error {ds : DecState} {syn : SynErr}
    (h : decodeD ds = .error syn) : (tokExprsD ds).1 = [] := by
  rw [tokExprsD, tokExprsF, h]

/-- The engine state C3's simulation walks through: one decoder frame, no
definitions, nothing pending, empty call stack, no sticky error. -/
def plainES (fsys : List (Str × Str)) (incs : List Str) (file : Str)
    (ds : DecState) : EState :=
  ⟨fsys, [], [], [(ds, file)], [], ⟨[], []⟩, incs, none⟩

/-- Simulation for C3: on a stream with no `define`/`include`
expressions, the engine's output is the tokenizer's output with the file
annotation added and an empty stack snapshot attached. -/
theorem plain_stream_sim (n : Nat) :
    ∀ (fsys : List (Str × Str)) (incs : List Str) (file : Str) (ds : DecState),
    (∀ e ∈ (tokExprsD ds).1,
      e.Name ≠ "define".toList ∧ e.Name ≠ "include".toList) →
    2 * (tokExprsD ds).1.length + 2 ≤ n →
    (runE n (plainES fsys incs file ds)).1 =
      (tokExprsD ds).1.map (fun ex => Expanded.mk ex (pathJoin [] file) []) := by
  induction n using Nat.strong_induction_on with
  | _ n ihs =>
    intro fsys incs file ds hnames hfuel
    rcases n with _ | m
    · omega
    · rw [runE, decodeE]
      simp only [plainES]
      cases hdec : decodeD ds with
      | error syn =>
        rw [tokExprsD_nil_of_error hdec]
        rfl
      | ok o =>
        cases o with
        | none =>
          rcases m with _ | m'
          · omega
          · rw [tokExprsD_nil_of_none hdec]
            try rfl
        | some p =>
          obtain ⟨raw, ds'⟩ := p
          have hcons := tokExprsD_cons hdec
          have hmem : raw ∈ (tokExprsD ds).1 := by
            rw [hcons]; exact List.mem_cons_self _ _
          obtain ⟨hnd, hni⟩ := hnames raw hmem
          rcases m with _ | m'
          · rw [hcons] at hfuel
            simp at hfuel
          · have hexp : expandE (m' + 1)
                ⟨fsys, [], [], [(ds', file)], [], ⟨[], []⟩, incs, none⟩
                (Expanded.mk raw (pathJoin [] file) []) =
                (.ok (some (Expanded.mk raw (pathJoin [] file) [])),
                 ⟨fsys, [], [], [(ds', file)], [], ⟨[], []⟩, incs, none⟩) := by
              have hnd' : ¬ ((Expanded.mk raw (pathJoin [] file) []).Name =
                  "define".toList) := hnd
              have hni' : ¬ ((Expanded.mk raw (pathJoin [] file) []).Name =
                  "include".toList) := hni
              rw [expandE]
              rw [if_neg hnd', if_neg hni']
              by_cases hblank : (Expanded.mk raw (pathJoin [] file) []).Name = []
              · rw [if_pos hblank]
              · rw [if_neg hblank]
                rfl
            simp only [hexp]
            rw [hcons]
            simp only [List.map_cons]
            have hih := ihs (m' + 1) (by omega) fsys incs file ds'
              (fun e he => hnames e (by rw [hcons]; exact List.mem_cons_of_mem _ he))
              (by rw [hcons] at hfuel; simp at hfuel; omega)
            simp only [plainES] at hih
            rw [hih]

/-- C3: on a script with no expression named `define` and none named
`include`, the expansion engine's stream equals the raw tokenizer's
stream except that each expression carries the file annotation and an
empty stack annotation; line, comment, name and body are unchanged. -/
theorem no_directives_refinement (src file : Str)
    (hnames : ∀ e ∈ (tokExprsD (freshDec src)).1,
      e.Name ≠ "define".toList ∧ e.Name ≠ "include".toList)
    (fuel : Nat)
    (hfuel : 2 * (tokExprsD (freshDec src)).1.length + 2 ≤ fuel) :
    (runE fuel (initE file [(file, src)])).1 =
      (tokExprsD (freshDec src)).1.map
        (fun ex => Expanded.mk ex (pathJoin [] file) []) := by
  have hinit : initE file [(file, src)] =
      plainES [(file, src)] [file] file (freshDec src) := by
    rw [initE]
    simp [fsOpen, lookupA, plainES]
  rw [hinit]
  exact plain_stream_sim fuel [(file, src)] [file] file (freshDec src) hnames hfuel

/-- Witness for C3 at a concrete input: a two-command script passes
through annotated. -/
theorem no_directives_refinement_witness :
    (runE 10 (initE "w.lb".toList
        [("w.lb".toList, "echo hi\nset x 1\n".toList)])).1 =
      (tokExprsD (freshDec "echo hi\nset x 1\n".toList)).1.map
        (fun ex => Expanded.mk ex (pathJoin [] "w.lb".toList) []) :=
  no_directives_refinement "echo hi\nset x 1\n".toList "w.lb".toList
    (by decide) 10 (by decide)

/-! ## Support lemmas for the round-trip claim (C5) -/

theorem fieldsF_succ (f : Nat) (c : Char) (s : Str) :
    fieldsF (f + 1) (c :: s) =
      if isUSpace c then fieldsF f s
      else (c :: s.takeWhile (fun d => ! isUSpace d)) ::
           fieldsF f (s.dropWhile (fun d => ! isUSpace d)) := rfl

theorem fieldsF_stable (fuel : Nat) (s : Str) (hf : s.length ≤ fuel) :
    fieldsF fuel s = fieldsGo s := by
  revert s
  induction fuel using Nat.strong_induction_on with
  | _ f ihs =>
    intro s hf
    rcases s with _ | ⟨c, cs⟩
    · cases f <;> rfl
    · rcases f with _ | f'
      · simp at hf
      · rw [fieldsGo]
        simp only [List.length_cons] at hf ⊢
        rw [fieldsF_succ, fieldsF_succ]
        by_cases hc : isUSpace c
        · rw [if_pos hc, if_pos hc]
          rw [ihs f' (by omega) cs (by omega),
              ihs cs.length (by omega) cs (by omega)]
        · rw [if_neg hc, if_neg hc]
          have hd := length_dropWhile_le' (fun d => ! isUSpace d) cs
          rw [ihs f' (by omega) _ (by omega),
              ihs cs.length (by omega) _ (by omega)]

theorem fields_cons_space {c : Char} (hc : isUSpace c = true) (s : Str) :
    fieldsGo (c :: s) = fieldsGo s := by
  rw [fieldsGo]
  simp only [List.length_cons]
  rw [fieldsF_succ, if_pos hc]
  exact fieldsF_stable s.length s (by omega)

theorem fields_cons_word {c : Char} (hc : ¬ isUSpace c = true) (s : Str) :
    fieldsGo (c :: s) =
      (c :: s.takeWhile (fun d => ! isUSpace d)) ::
        fieldsGo (s.dropWhile (fun d => ! isUSpace d)) := by
  rw [fieldsGo]
  simp only [List.length_cons]
  rw [fieldsF_succ, if_neg hc]
  have hd := length_dropWhile_le' (fun d => ! isUSpace d) s
  rw [fieldsF_stable s.length _ (by omega)]

theorem fields_trimLeft (s : Str) : fieldsGo (trimLeftU s) = fieldsGo s := by
  induction s with
  | nil => rfl
  | cons c cs ih =>
    by_cases hc : isUSpace c
    · rw [trimLeftU, List.dropWhile_cons_of_pos hc, fields_cons_space hc]
      exact ih
    · rw [trimLeftU, List.dropWhile_cons_of_neg hc]

theorem fields_append_space {c : Char} (hc : isUSpace c = true) :
    ∀ (n : Nat) (s : Str), s.length = n → fieldsGo (s ++ [c]) = fieldsGo s := by
  intro n
  induction n using Nat.strong_induction_on with
  | _ n ihs =>
    intro s hn
    rcases s with _ | ⟨a, as⟩
    · simp only [List.nil_append]
      rw [fields_cons_space hc]
    · by_cases ha : isUSpace a
      · rw [List.cons_append, fields_cons_space ha, fields_cons_space ha]
        exact ihs as.length (by simp [← hn]) as rfl
      · rw [List.cons_append, fields_cons_word ha, fields_cons_word ha]
        have ht : (as ++ [c]).takeWhile (fun d => ! isUSpace d) =
            as.takeWhile (fun d => ! isUSpace d) := by
          rw [List.takeWhile_append]
          split
          · next hlen =>
            have hsub : as.takeWhile (fun d => ! isUSpace d) = as :=
              List.Sublist.eq_of_length
                (List.takeWhile_sublist (l := as) (fun d => ! isUSpace d)) hlen
            have hone : [c].takeWhile (fun d => ! isUSpace d) = [] := by
              simp [List.takeWhile_cons, hc]
            rw [hone, List.append_nil, hsub]
          · rfl
        have hdw : (as ++ [c]).dropWhile (fun d => ! isUSpace d) =
            as.dropWhile (fun d => ! isUSpace d) ++ [c] := by
          rw [List.dropWhile_append]
          split
          · next hemp =>
            have h0 : as.dropWhile (fun d => ! isUSpace d) = [] := by
              simpa [List.isEmpty_iff] using hemp
            rw [h0, List.nil_append]
            simp [List.dropWhile_cons, hc]
          · rfl
        rw [ht, hdw]
        have hlen := length_dropWhile_le' (fun d => ! isUSpace d) as
        rw [ihs (as.dropWhile (fun d => ! isUSpace d)).length
          (by simp [← hn]; omega) _ rfl]

theorem dropWhile_eq_self_of_head {p : Char → Bool} :
    ∀ {l : Str}, (∀ a, l.head? = some a → p a = false) → l.dropWhile p = l
  | [], _ => rfl
  | a :: as, h => List.dropWhile_cons_of_neg (by simp [h a rfl])

theorem dropWhile_idem (p : Char → Bool) (l : Str) :
    (l.dropWhile p).dropWhile p = l.dropWhile p := by
  apply dropWhile_eq_self_of_head
  intro a ha
  cases hd : l.dropWhile p with
  | nil => rw [hd] at ha; cases ha
  | cons b bs =>
    rw [hd] at ha
    cases ha
    exact dropWhile_head_false hd

theorem dropWhile_append_one {p : Char → Bool} {c : Char} (hc : p c = false)
    (xs : Str) : (xs ++ [c]).dropWhile p = xs.dropWhile p ++ [c] := by
  rw [List.dropWhile_append]
  split
  · next hemp =>
    have h0 : xs.dropWhile p = [] := by simpa [List.isEmpty_iff] using hemp
    rw [h0, List.nil_append]
    simp [List.dropWhile_cons, hc]
  · rfl

theorem trimRightU_cons_neg {a : Char} (ha : isUSpace a = false) (as : Str) :
    trimRightU (a :: as) = a :: trimRightU as := by
  rw [trimRightU, trimRightU]
  rw [show (a :: as).reverse = as.reverse ++ [a] by simp]
  rw [dropWhile_append_one ha]
  simp

theorem trimRightU_idem (y : Str) : trimRightU (trimRightU y) = trimRightU y := by
  rw [trimRightU, trimRightU]
  rw [List.reverse_reverse, dropWhile_idem]

theorem trimLeftU_head_false {y : Str} (h : trimLeftU y = y) :
    ∀ a, y.head? = some a → isUSpace a = false := by
  intro a ha
  cases y with
  | nil => cases ha
  | cons b bs =>
    cases ha
    by_cases hb : isUSpace a
    · exfalso
      rw [trimLeftU, List.dropWhile_cons_of_pos hb] at h
      have := length_dropWhile_le' isUSpace bs
      have := congrArg List.length h
      simp at this
      omega
    · simpa using hb

theorem trimLeftU_trimRightU {y : Str} (h : trimLeftU y = y) :
    trimLeftU (trimRightU y) = trimRightU y := by
  cases y with
  | nil => rfl
  | cons a as =>
    have ha : isUSpace a = false := trimLeftU_head_false h a rfl
    rw [trimRightU_cons_neg ha]
    exact List.dropWhile_cons_of_neg (by simp [ha])

theorem trimLeftU_idem (s : Str) : trimLeftU (trimLeftU s) = trimLeftU s :=
  dropWhile_idem isUSpace s

theorem trimSpaceU_idem (s : Str) : trimSpaceU (trimSpaceU s) = trimSpaceU s := by
  rw [trimSpaceU, trimSpaceU]
  have h1 : trimLeftU (trimLeftU s) = trimLeftU s := trimLeftU_idem s
  have h2 : trimLeftU (trimRightU (trimLeftU s)) = trimRightU (trimLeftU s) :=
    trimLeftU_trimRightU h1
  rw [h2, trimRightU_idem]

theorem mem_trimRightU {c : Char} {s : Str} (h : c ∈ trimRightU s) : c ∈ s := by
  rw [trimRightU] at h
  have hsub : (s.reverse.dropWhile isUSpace).reverse.Sublist s.reverse.reverse :=
    (List.dropWhile_sublist isUSpace).reverse
  rw [List.reverse_reverse] at hsub
  exact hsub.mem h

theorem mem_trimSpaceU {c : Char} {s : Str} (h : c ∈ trimSpaceU s) : c ∈ s := by
  rw [trimSpaceU] at h
  exact (List.dropWhile_sublist isUSpace).mem (mem_trimRightU h)

theorem splitLine_append_nl {xs : Str} (h : ∀ ch ∈ xs, ch ≠ '\n') :
    splitLine (xs ++ ['\n']) = (xs ++ ['\n'], []) := by
  induction xs with
  | nil => rfl
  | cons a as ih =>
    have ha : a ≠ '\n' := h a (List.mem_cons_self a as)
    rw [List.cons_append, splitLine]
    rw [if_neg ha]
    rw [ih (fun ch hch => h ch (List.mem_cons_of_mem a hch))]

/-- The keep predicate of `parseBody` (`IndexAny(body, " \t\n")`). -/
def keepB : Char → Bool := fun c => !(c = ' ' || c = '\t' || c = '\n')

theorem makeExpr_Name (l : Nat) (c b : Str) :
    (makeExpr l c b).Name = trimSpaceU (b.takeWhile keepB) := rfl

theorem makeExpr_name_chars {ch : Char} {l : Nat} {c b : Str}
    (h : ch ∈ (makeExpr l c b).Name) : ch ≠ ' ' ∧ ch ≠ '\t' ∧ ch ≠ '\n' := by
  rw [makeExpr_Name] at h
  have h1 : ch ∈ b.takeWhile keepB := mem_trimSpaceU h
  have h2 := List.mem_takeWhile_imp h1
  rw [keepB] at h2
  simp only [Bool.not_eq_true', Bool.or_eq_false_iff, decide_eq_false_iff_not] at h2
  exact ⟨h2.1.1, h2.1.2, h2.2⟩

theorem makeExpr_name_trimmed (l : Nat) (c b : Str) :
    trimSpaceU (makeExpr l c b).Name = (makeExpr l c b).Name := by
  rw [makeExpr_Name]
  exact trimSpaceU_idem _

/-- Every expression `decodeLoop` produces is a `makeExpr`. -/
theorem decodeLoop_shape {fuel : Nat} {cs : Str} {st : DecState}
    {e : Expression} {st' : DecState}
    (h : decodeLoop fuel cs st = .ok (some (e, st'))) :
    ∃ l c b, e = makeExpr l c b := by
  induction fuel generalizing cs st with
  | zero => rw [decodeLoop] at h; cases h
  | succ f ih =>
    rw [decodeLoop] at h
    by_cases h1 : (readLineD st).2.1 = true ∧ (readLineD st).1 = []
    · rw [if_pos h1] at h
      by_cases h2 : cs.length > 0
      · rw [if_pos h2] at h
        cases h
        exact ⟨_, _, _, rfl⟩
      · rw [if_neg h2] at h; cases h
    · rw [if_neg h1] at h
      by_cases h2 : (readLineD st).1.head? = some '\n'
      · rw [if_pos h2] at h
        cases h
        exact ⟨_, _, _, rfl⟩
      · rw [if_neg h2] at h
        by_cases h3 : (readLineD st).1.head? = some '#'
        · rw [if_pos h3] at h
          exact ih h
        · rw [if_neg h3] at h
          by_cases h4 : (readLineD st).1.head? = some ' ' ∨
              (readLineD st).1.head? = some '\t'
          · rw [if_pos h4] at h; cases h
          · rw [if_neg h4] at h
            cases h
            exact ⟨_, _, _, rfl⟩

/-- Every expression in a stream comes from one `Decode` call. -/
theorem mem_tokExprsF {fuel : Nat} {st : DecState} {e : Expression}
    (h : e ∈ (tokExprsF fuel st).1) :
    ∃ st₁ st₂, decodeD st₁ = .ok (some (e, st₂)) := by
  induction fuel generalizing st with
  | zero => rw [tokExprsF] at h; cases h
  | succ f ih =>
    rw [tokExprsF] at h
    cases hd : decodeD st with
    | error e0 => rw [hd] at h; cases h
    | ok o =>
      rw [hd] at h
      cases o with
      | none => cases h
      | some p =>
        obtain ⟨e1, st₂⟩ := p
        simp only [List.cons_eq_cons] at h
        rcases List.mem_cons.mp h with rfl | hmem
        · exact ⟨st, st₂, hd⟩
        · exact ih hmem

/-- Name invariant of produced expressions: no space, tab or newline in
a name, and names are trim-stable. -/
theorem produced_name_inv {st : DecState} {e : Expression}
    (h : e ∈ (tokExprsD st).1) :
    (∀ ch ∈ e.Name, ch ≠ ' ' ∧ ch ≠ '\t' ∧ ch ≠ '\n') ∧
    trimSpaceU e.Name = e.Name := by
  obtain ⟨st₁, st₂, hd⟩ := mem_tokExprsF h
  obtain ⟨l, c, b, rfl⟩ := decodeLoop_shape hd
  exact ⟨fun ch hch => makeExpr_name_chars hch, makeExpr_name_trimmed l c b⟩

/-- `Decode` on a single command line `xs` terminated by a newline: the
whole line is consumed as one command expression. -/
theorem decodeD_single_line {xs : Str} {a : Char}
    (hx : ∀ ch ∈ xs, ch ≠ '\n') (hha : xs.head? = some a)
    (ha1 : ¬ a = '\n') (ha2 : ¬ a = '#') (ha3 : ¬ a = ' ') (ha4 : ¬ a = '\t') :
    decodeD ⟨xs ++ ['\n'], 0⟩ =
      .ok (some (makeExpr 1 [] (xs ++ ['\n']), ⟨[], 1⟩)) := by
  have hsplit : splitLine (xs ++ ['\n']) = (xs ++ ['\n'], []) :=
    splitLine_append_nl hx
  have hg : (xs ++ ['\n']).getLast? = some '\n' := List.getLast?_concat _
  have hh2 : (xs ++ ['\n']).head? = some a := by
    rw [List.head?_append, hha]
    rfl
  have hrl : readLineD ⟨xs ++ ['\n'], 0⟩ = (xs ++ ['\n'], false, ⟨[], 1⟩) := by
    simp [readLineD, hsplit, hg]
  rw [show decodeD ⟨xs ++ ['\n'], 0⟩ =
      decodeLoop (Nat.succ (xs ++ ['\n']).length) [] ⟨xs ++ ['\n'], 0⟩ from rfl]
  rw [decodeLoop, hrl]
  dsimp only
  rw [if_neg (by simp)]
  rw [hh2]
  rw [if_neg (by simpa using ha1)]
  rw [if_neg (by simpa using ha2)]
  rw [if_neg (by simp [ha3, ha4])]
  rw [show readConts ⟨[], 1⟩ = ([], ⟨[], 1⟩) from rfl]
  dsimp only
  rw [List.append_nil]

theorem keepB_of_chars {ch : Char} (h : ch ≠ ' ' ∧ ch ≠ '\t' ∧ ch ≠ '\n') :
    keepB ch = true := by
  rw [keepB]
  simp [h.1, h.2.1, h.2.2]

theorem parseBody_eq (body : Str) :
    parseBody body =
      (trimSpaceU (body.takeWhile keepB), trimLeftST (body.dropWhile keepB)) :=
  rfl

theorem trimLeftST_cons_of_neg {c : Char} {s : Str}
    (h1 : ¬ c = ' ') (h2 : ¬ c = '\t') : trimLeftST (c :: s) = c :: s := by
  show List.dropWhile _ (c :: s) = c :: s
  exact List.dropWhile_cons_of_neg (by simp [h1, h2])

/-- `parseBody` of a name followed by a newline. -/
theorem parseBody_name_nl {name : Str}
    (hchars : ∀ ch ∈ name, ch ≠ ' ' ∧ ch ≠ '\t' ∧ ch ≠ '\n') :
    parseBody (name ++ ['\n']) = (trimSpaceU name, ['\n']) := by
  have hall : ∀ ch ∈ name, keepB ch = true :=
    fun ch hch => keepB_of_chars (hchars ch hch)
  rw [parseBody_eq, List.takeWhile_append_of_pos hall,
    List.dropWhile_append_of_pos hall]
  rw [show List.takeWhile keepB ['\n'] = [] from rfl, List.append_nil]
  rw [show trimLeftST (List.dropWhile keepB ['\n']) = ['\n'] from rfl]

/-- `parseBody` of a name, one space, and a tail. -/
theorem parseBody_name_space {name rest : Str}
    (hchars : ∀ ch ∈ name, ch ≠ ' ' ∧ ch ≠ '\t' ∧ ch ≠ '\n') :
    parseBody (name ++ ' ' :: rest) = (trimSpaceU name, trimLeftST rest) := by
  have hall : ∀ ch ∈ name, keepB ch = true :=
    fun ch hch => keepB_of_chars (hchars ch hch)
  rw [parseBody_eq, List.takeWhile_append_of_pos hall,
    List.dropWhile_append_of_pos hall]
  rw [List.takeWhile_cons_of_neg (by decide : ¬ keepB ' ' = true),
    List.append_nil]
  rw [List.dropWhile_cons_of_neg (by decide : ¬ keepB ' ' = true)]
  rw [show trimLeftST (' ' :: rest) = trimLeftST rest from
    List.dropWhile_cons_of_pos (by decide)]

/-- `fieldsGo` is blind to one trailing newline trim. -/
theorem fields_trimSuffixNL (b : Str) :
    fieldsGo (trimSuffixNL b) = fieldsGo b := by
  rcases trimSuffixNL_cases b with h | h
  · rw [← h]
  · conv_rhs => rw [h]
    rw [fields_append_space (by decide) (trimSuffixNL b).length _ rfl]

/-- Reconstruction parses back: for a trim-stable name free of space,
tab and newline, and a single-line body, the text `exprString` builds is
parsed to exactly one expression with the same name and the same
whitespace-separated body fields. -/
theorem exprString_reparse (name b : Str)
    (hchars : ∀ ch ∈ name, ch ≠ ' ' ∧ ch ≠ '\t' ∧ ch ≠ '\n')
    (htrim : trimSpaceU name = name)
    (hsl : ∀ ch ∈ trimSuffixNL b, ch ≠ '\n')
    (hshape : (name ≠ [] ∧ name.head? ≠ some '#') ∨
      (name = [] ∧ (b = [] ∨ b = ['\n']))) :
    ∃ e', (tokExprsD (freshDec (exprString name b))).1 = [e'] ∧
      e'.Name = name ∧ fieldsGo e'.Body = fieldsGo b := by
  have hnotnl : ¬ (trimSuffixNL b).head? = some '\n' := by
    intro h0
    cases hb : trimSuffixNL b with
    | nil => rw [hb] at h0; cases h0
    | cons x xs =>
      rw [hb] at h0
      cases h0
      exact hsl '\n' (by rw [hb]; exact List.mem_cons_self _ _) rfl
  have hfb : fieldsGo (trimLeftU (trimSuffixNL b)) = fieldsGo b := by
    rw [fields_trimLeft, fields_trimSuffixNL]
  rcases hshape with ⟨hne, hh⟩ | ⟨rfl, hb⟩
  · obtain ⟨a, hha⟩ : ∃ a, name.head? = some a := by
      cases name with
      | nil => exact absurd rfl hne
      | cons c cs => exact ⟨c, rfl⟩
    have hamem : a ∈ name := by
      cases name with
      | nil => simp at hha
      | cons c cs =>
        rw [List.head?_cons, Option.some.injEq] at hha
        rw [← hha]
        exact List.mem_cons_self _ _
    obtain ⟨ha3, ha4, ha1⟩ := hchars a hamem
    have ha2 : ¬ a = '#' := fun h0 => hh (h0 ▸ hha)
    have hx1 : ∀ ch ∈ name, ch ≠ '\n' := fun ch hch => (hchars ch hch).2.2
    by_cases hcore : trimLeftU (trimSuffixNL b) = []
    · -- empty core: the text is the name and a newline
      have hstr : exprString name b = name ++ ['\n'] := by
        rw [exprString, if_neg hnotnl, if_neg (not_not_intro hcore),
          List.append_nil]
      have hdec1 : decodeD (freshDec (name ++ ['\n'])) =
          .ok (some (makeExpr 1 [] (name ++ ['\n']), ⟨[], 1⟩)) :=
        decodeD_single_line hx1 hha ha1 ha2 ha3 ha4
      refine ⟨makeExpr 1 [] (name ++ ['\n']), ?_, ?_, ?_⟩
      · rw [hstr, tokExprsD_cons hdec1]
        rw [show (tokExprsD ⟨[], 1⟩).1 = [] from rfl]
      · show (parseBody (name ++ ['\n'])).1 = name
        rw [parseBody_name_nl hchars]
        exact htrim
      · show fieldsGo (parseBody (name ++ ['\n'])).2 = fieldsGo b
        rw [parseBody_name_nl hchars]
        show fieldsGo ['\n'] = fieldsGo b
        rw [show fieldsGo ['\n'] = fieldsGo ([] : Str) from rfl]
        rw [← hfb, hcore]
    · -- nonempty core: name, space, core, newline
      obtain ⟨k, ks, hk⟩ : ∃ k ks, trimLeftU (trimSuffixNL b) = k :: ks := by
        cases hc : trimLeftU (trimSuffixNL b) with
        | nil => exact absurd hc hcore
        | cons k ks => exact ⟨k, ks, rfl⟩
      have hk' : List.dropWhile isUSpace (trimSuffixNL b) = k :: ks := hk
      have hkf : isUSpace k = false := dropWhile_head_false hk'
      have hk1 : ¬ k = ' ' := by
        intro h0
        rw [h0] at hkf
        exact absurd hkf (by decide)
      have hk2 : ¬ k = '\t' := by
        intro h0
        rw [h0] at hkf
        exact absurd hkf (by decide)
      have hstr : exprString name b = (name ++ ' ' :: k :: ks) ++ ['\n'] := by
        rw [exprString, if_neg hnotnl, hk, if_pos (List.cons_ne_nil k ks)]
      have hsub : ∀ {ch : Char}, ch ∈ k :: ks → ch ∈ trimSuffixNL b := by
        intro ch hm
        have h2 : ch ∈ List.dropWhile isUSpace (trimSuffixNL b) := by
          rw [hk']
          exact hm
        exact List.Sublist.mem h2 (List.dropWhile_sublist _)
      have hx2 : ∀ ch ∈ name ++ ' ' :: k :: ks, ch ≠ '\n' := by
        intro ch hch
        rcases List.mem_append.mp hch with hin | hin
        · exact hx1 ch hin
        · rcases List.mem_cons.mp hin with rfl | hin2
          · decide
          · exact hsl ch (hsub hin2)
      have hha2 : (name ++ ' ' :: k :: ks).head? = some a := by
        rw [List.head?_append, hha]
        rfl
      have hdec2 : decodeD (freshDec ((name ++ ' ' :: k :: ks) ++ ['\n'])) =
          .ok (some (makeExpr 1 [] ((name ++ ' ' :: k :: ks) ++ ['\n']),
            ⟨[], 1⟩)) :=
        decodeD_single_line hx2 hha2 ha1 ha2 ha3 ha4
      refine ⟨makeExpr 1 [] ((name ++ ' ' :: k :: ks) ++ ['\n']), ?_, ?_, ?_⟩
      · rw [hstr, tokExprsD_cons hdec2]
        rw [show (tokExprsD ⟨[], 1⟩).1 = [] from rfl]
      · show (parseBody ((name ++ ' ' :: k :: ks) ++ ['\n'])).1 = name
        rw [List.append_assoc]
        rw [show (' ' :: k :: ks) ++ ['\n'] = ' ' :: ((k :: ks) ++ ['\n'])
          from rfl]
        rw [parseBody_name_space hchars]
        exact htrim
      · show fieldsGo
            (parseBody ((name ++ ' ' :: k :: ks) ++ ['\n'])).2 = fieldsGo b
        rw [List.append_assoc]
        rw [show (' ' :: k :: ks) ++ ['\n'] = ' ' :: ((k :: ks) ++ ['\n'])
          from rfl]
        rw [parseBody_name_space hchars]
        show fieldsGo (trimLeftST ((k :: ks) ++ ['\n'])) = fieldsGo b
        rw [show (k :: ks) ++ ['\n'] = k :: (ks ++ ['\n']) from rfl]
        rw [trimLeftST_cons_of_neg hk1 hk2]
        rw [show k :: (ks ++ ['\n']) = (k :: ks) ++ ['\n'] from rfl]
        rw [fields_append_space (by decide) (k :: ks).length (k :: ks) rfl]
        rw [← hfb, hk]
  · -- empty name: blank expression, body empty or one newline
    rcases hb with rfl | rfl
    · exact ⟨⟨1, [], [], ['\n']⟩, rfl, rfl, rfl⟩
    · exact ⟨⟨1, [], [], ['\n']⟩, rfl, rfl, rfl⟩

/-- C5 (counterexample): the command `cmd` with the continuation line
`\tfoo` is tokenized as one expression whose body is `\nfoo\n`, but the
reconstructed source text of that expression parses back as two
expressions, and their body fields do not match the original body: the
continuation tab is not reproduced by `Expanded.String`, so multi-line
bodies do not round-trip. -/
theorem roundtrip_counterexample :
    (tokExprsD (freshDec ("cmd\n\tfoo\n".toList))).1 =
      [⟨1, [], "cmd".toList, "\nfoo\n".toList⟩] ∧
    (tokExprsD (freshDec
      (exprString ("cmd".toList) ("\nfoo\n".toList)))).1.length = 2 ∧
    (tokExprsD (freshDec
      (exprString ("cmd".toList) ("\nfoo\n".toList)))).1.map
        (fun x => fieldsGo x.Body) ≠ [fieldsGo ("\nfoo\n".toList)] := by
  refine ⟨by decide, by decide, by decide⟩

/-- C5 (amended): for every expression the tokenizer produces whose body
is single-line — no interior newline once the trailing one is trimmed —
and whose name is nonempty and does not start with `#` (or, for the
blank/comment shapes, whose name is empty and body is empty or a single
newline), reconstructing the source text with the `Expanded.String`
layout and re-tokenizing yields exactly one expression with the same
name and the same whitespace-separated body fields. -/
theorem roundtrip_single_line (src : Str) (e : Expression)
    (hmem : e ∈ (tokExprsD (freshDec src)).1)
    (hsl : ∀ ch ∈ trimSuffixNL e.Body, ch ≠ '\n')
    (hshape : (e.Name ≠ [] ∧ e.Name.head? ≠ some '#') ∨
      (e.Name = [] ∧ (e.Body = [] ∨ e.Body = ['\n']))) :
    (tokExprsD (freshDec (exprString e.Name e.Body))).1.map Expression.Name =
      [e.Name] ∧
    (tokExprsD (freshDec (exprString e.Name e.Body))).1.map
      (fun x => fieldsGo x.Body) = [fieldsGo e.Body] := by
  obtain ⟨hchars, htrim⟩ := produced_name_inv hmem
  obtain ⟨e', hL, hn, hb⟩ :=
    exprString_reparse e.Name e.Body hchars htrim hsl hshape
  rw [hL]
  simp [hn, hb]

theorem roundtrip_single_line_witness :
    (tokExprsD (freshDec (exprString ("cmd".toList)
        ("a b\n".toList)))).1.map Expression.Name = ["cmd".toList] ∧
    (tokExprsD (freshDec (exprString ("cmd".toList)
        ("a b\n".toList)))).1.map (fun x => fieldsGo x.Body) =
      [fieldsGo ("a b\n".toList)] :=
  roundtrip_single_line ("cmd a b\n".toList)
    ⟨1, [], "cmd".toList, "a b\n".toList⟩ (by decide) (by decide) (by decide)

end Linebased
